import Mathlib

/-!
Verification of the core of the `cache-read-record` repository (an annotated
copy of allegro/bigcache v2): the byte-ring queue (`queue/bytes_queue.go`),
the entry codec (`encoding.go`), the shard operations (`shard.go`) and the
front-cache validation (`bigcache.go`).

The Go code is shallowly embedded: byte buffers are `List Nat` (each element
one byte), Go `uint64`/`uint32`/`uint16` arithmetic is `Nat` with explicit
`% 2^64`, `% 2^32`, `% 2^16`, maps are functions `Nat → Nat` whose default
value `0` plays the role of Go's zero value, and mutation is explicit state
passing.  Loops of the Go source are given the exact fuel they need
(`count + 1`), mirroring their termination argument.
-/

/-- Bytes of a Go `[]byte` slice; one `Nat` per byte. -/
abbrev Bytes := List Nat

/-! ### `encoding/binary`: uvarint and little-endian integers -/

/-- The loop of `binary.PutUvarint`, structurally recursive on the number
of bytes still allowed (`MaxVarintLen64 = 10` suffices for any `uint64`).
Each emitted byte is `byte(x) | 0x80 = x % 128 + 128` while `x ≥ 128`,
then the final byte `x < 128`. -/
def putUvarintFuel : Nat → Nat → Bytes
  | 0, _ => []
  | fuel + 1, x =>
    if x < 128 then [x] else (x % 128 + 128) :: putUvarintFuel fuel (x / 128)

/-- `binary.PutUvarint`: little-endian base-128 with continuation bit.
A `uint64` needs at most 10 bytes. -/
def putUvarint (x : Nat) : Bytes := putUvarintFuel 10 x

/-- The loop of `binary.Uvarint` (buf, accumulator x, shift s, position i);
returns the decoded value and the number of bytes read (`≤ 0` on failure),
exactly as the Go standard library does. -/
def uvarintLoop : List Nat → Nat → Nat → Nat → Nat × Int
  | [], _, _, _ => (0, 0)
  | b :: rest, x, s, i =>
    if i = 10 then (0, -(Int.ofNat i + 1))
    else if b < 128 then
      if i = 9 ∧ b > 1 then (0, -(Int.ofNat i + 1))
      else ((x ||| (b <<< s)) % 2 ^ 64, Int.ofNat i + 1)
    else uvarintLoop rest ((x ||| ((b % 128) <<< s)) % 2 ^ 64) (s + 7) (i + 1)

/-- `binary.Uvarint`. -/
def goUvarint (buf : List Nat) : Nat × Int := uvarintLoop buf 0 0 0

/-- `binary.LittleEndian.PutUint16` (2 bytes, value truncated to 16 bits). -/
def putUint16 (x : Nat) : Bytes := [x % 256, x / 256 % 256]

/-- `binary.LittleEndian.PutUint64` (8 bytes, value truncated to 64 bits). -/
def putUint64 (x : Nat) : Bytes :=
  [x % 256, x / 256 % 256, x / 256 ^ 2 % 256, x / 256 ^ 3 % 256,
   x / 256 ^ 4 % 256, x / 256 ^ 5 % 256, x / 256 ^ 6 % 256, x / 256 ^ 7 % 256]

/-- `binary.LittleEndian.Uint16` on the first two bytes. -/
def readUint16 (l : Bytes) : Nat := l.headD 0 + 256 * (l.drop 1).headD 0

/-- `binary.LittleEndian.Uint64` on the first eight bytes. -/
def readUint64 (l : Bytes) : Nat :=
  l.headD 0 + 256 * (l.drop 1).headD 0 + 256 ^ 2 * (l.drop 2).headD 0 +
  256 ^ 3 * (l.drop 3).headD 0 + 256 ^ 4 * (l.drop 4).headD 0 +
  256 ^ 5 * (l.drop 5).headD 0 + 256 ^ 6 * (l.drop 6).headD 0 +
  256 ^ 7 * (l.drop 7).headD 0

/-! #### Facts about the varint coders -/

theorem lor_shiftLeft_eq_add {x y s : Nat} (hx : x < 2 ^ s) :
    x ||| (y <<< s) = x + y * 2 ^ s := by
  apply Nat.eq_of_testBit_eq
  intro i
  rw [Nat.testBit_lor, Nat.testBit_shiftLeft]
  rcases lt_or_le i s with hi | hi
  · have h2 : (2 : Nat) ^ s = 2 ^ i * 2 ^ (s - i) := by
      rw [← pow_add]; congr 1; omega
    have hdiv : (x + y * 2 ^ s) / 2 ^ i = x / 2 ^ i + y * 2 ^ (s - i) := by
      rw [h2, ← mul_assoc, mul_comm (y * 2 ^ i) (2 ^ (s - i))]
      rw [show x + 2 ^ (s - i) * (y * 2 ^ i) = x + 2 ^ i * (2 ^ (s - i) * y) by ring]
      rw [Nat.add_mul_div_left _ _ (Nat.pos_pow_of_pos i (by omega))]
      ring_nf
    have hmod : (x / 2 ^ i + y * 2 ^ (s - i)) % 2 = x / 2 ^ i % 2 := by
      have hsi : s - i = (s - i - 1) + 1 := by omega
      rw [hsi, pow_succ, ← mul_assoc, Nat.add_mul_mod_self_right]
    have hge : (decide (i ≥ s)) = false := by
      simp only [ge_iff_le, decide_eq_false_iff_not]; omega
    rw [hge, Bool.false_and, Bool.or_false, Nat.testBit_to_div_mod,
      Nat.testBit_to_div_mod, hdiv, hmod]
  · have hxi : x.testBit i = false :=
      Nat.testBit_lt_two_pow (lt_of_lt_of_le hx (Nat.pow_le_pow_right (by omega) hi))
    have hdiv : (x + y * 2 ^ s) / 2 ^ i = y / 2 ^ (i - s) := by
      have h2 : (2 : Nat) ^ i = 2 ^ s * 2 ^ (i - s) := by
        rw [← pow_add]; congr 1; omega
      rw [h2, ← Nat.div_div_eq_div_mul]
      congr 1
      rw [show x + y * 2 ^ s = x + 2 ^ s * y by ring]
      rw [Nat.add_mul_div_left _ _ (Nat.pos_pow_of_pos s (by omega))]
      rw [Nat.div_eq_of_lt hx, Nat.zero_add]
    have hge : (decide (i ≥ s)) = true := by
      simp only [ge_iff_le, decide_eq_true_eq]; omega
    rw [hxi, hge, Bool.true_and, Bool.false_or, Nat.testBit_to_div_mod,
      Nat.testBit_to_div_mod, hdiv]

theorem putUvarintFuel_mono : ∀ (f1 : Nat) (x : Nat) (f2 : Nat), x < 2 ^ (7 * f1) →
    1 ≤ f1 → f1 ≤ f2 → putUvarintFuel f2 x = putUvarintFuel f1 x := by
  intro f1
  induction f1 with
  | zero =>
    intro x f2 _ hf1 _
    omega
  | succ f1 ih =>
    intro x f2 hx _ hle
    cases f2 with
    | zero => omega
    | succ f2 =>
      simp only [putUvarintFuel]
      rcases lt_or_le x 128 with h | h
      · rw [if_pos h, if_pos h]
      · rw [if_neg (by omega), if_neg (by omega)]
        congr 1
        have h2 : 2 ^ (7 * (f1 + 1)) = 2 ^ (7 * f1) * 128 := by
          rw [show 7 * (f1 + 1) = 7 * f1 + 7 by ring, pow_add]
          norm_num
        rw [h2] at hx
        have hf1 : 1 ≤ f1 := by
          by_contra hc
          have hf0 : f1 = 0 := by omega
          subst hf0
          norm_num at hx
          omega
        refine ih (x / 128) f2 ?_ hf1 (by omega)
        omega

theorem putUvarint_of_lt {x : Nat} (h : x < 128) : putUvarint x = [x] := by
  rw [putUvarint]
  rw [show (10 : Nat) = 9 + 1 by rfl, putUvarintFuel, if_pos h]

theorem putUvarint_of_ge {x : Nat} (h : 128 ≤ x) (hx : x < 2 ^ 63) :
    putUvarint x = (x % 128 + 128) :: putUvarint (x / 128) := by
  rw [putUvarint, putUvarint]
  rw [show (10 : Nat) = 9 + 1 by rfl, putUvarintFuel, if_neg (Nat.not_lt_of_ge h)]
  congr 1
  refine (putUvarintFuel_mono 9 (x / 128) (9 + 1) ?_ (by omega) (by omega)).symm
  have : (2 : Nat) ^ 63 ≤ 2 ^ (7 * 9) * 128 := by norm_num
  omega

/-- `getUvarintSize` from `bytes_queue.go`: number of bytes to encode `x`
(a `uint32`) in uvarint format. -/
def getUvarintSize (x : Nat) : Nat :=
  if x < 128 then 1
  else if x < 16384 then 2
  else if x < 2097152 then 3
  else if x < 268435456 then 4
  else 5

/-- For lengths below `2^32` the size precomputed by `Push` agrees with the
number of bytes `PutUvarint` actually writes. -/
theorem putUvarint_length {x : Nat} (h : x < 2 ^ 32) :
    (putUvarint x).length = getUvarintSize x := by
  unfold getUvarintSize
  rcases lt_or_le x 128 with h1 | h1
  · simp [putUvarint_of_lt h1, h1]
  rcases lt_or_le x 16384 with h2 | h2
  · rw [putUvarint_of_ge h1 (by omega), putUvarint_of_lt (by omega)]
    simp [h2, Nat.not_lt_of_ge h1]
  rcases lt_or_le x 2097152 with h3 | h3
  · rw [putUvarint_of_ge h1 (by omega), putUvarint_of_ge (by omega) (by omega),
      putUvarint_of_lt (by omega)]
    simp [h3, Nat.not_lt_of_ge h1, Nat.not_lt_of_ge h2]
  rcases lt_or_le x 268435456 with h4 | h4
  · rw [putUvarint_of_ge h1 (by omega), putUvarint_of_ge (by omega) (by omega),
      putUvarint_of_ge (by omega) (by omega), putUvarint_of_lt (by omega)]
    simp [h4, Nat.not_lt_of_ge h1, Nat.not_lt_of_ge h2, Nat.not_lt_of_ge h3]
  · rw [putUvarint_of_ge h1 (by omega), putUvarint_of_ge (by omega) (by omega),
      putUvarint_of_ge (by omega) (by omega), putUvarint_of_ge (by omega) (by omega),
      putUvarint_of_lt (by omega)]
    simp [Nat.not_lt_of_ge h1, Nat.not_lt_of_ge h2, Nat.not_lt_of_ge h3, Nat.not_lt_of_ge h4]

/-- Decoding inverts encoding: the `Uvarint` loop run over an encoded value
followed by arbitrary bytes recovers the value and its encoded length. -/
theorem uvarintLoop_putUvarint (v : Nat) : ∀ (l : List Nat) (x i : Nat),
    v < 2 ^ 32 → i + (putUvarint v).length ≤ 9 → x < 2 ^ (7 * i) →
    uvarintLoop (putUvarint v ++ l) x (7 * i) i =
      (x + v * 2 ^ (7 * i), Int.ofNat (i + (putUvarint v).length)) := by
  induction v using Nat.strong_induction_on with
  | _ v ih =>
    intro l x i hv32 hlen hx
    rcases lt_or_le v 128 with hv | hv
    · rw [putUvarint_of_lt hv] at hlen ⊢
      simp only [List.length_cons, List.length_nil] at hlen
      simp only [List.cons_append, List.nil_append, uvarintLoop]
      have hi10 : ¬ (i = 10) := by omega
      have hi9 : ¬ (i = 9 ∧ v > 1) := by omega
      simp only [hi10, if_false, hv, if_true, hi9]
      rw [lor_shiftLeft_eq_add hx]
      have hlt : x + v * 2 ^ (7 * i) < 2 ^ 64 := by
        have h1 : x + v * 2 ^ (7 * i) < 128 * 2 ^ (7 * i) := by
          have : (v + 1) * 2 ^ (7 * i) ≤ 128 * 2 ^ (7 * i) :=
            Nat.mul_le_mul_right _ (by omega)
          calc x + v * 2 ^ (7 * i) < 2 ^ (7 * i) + v * 2 ^ (7 * i) := by omega
          _ = (v + 1) * 2 ^ (7 * i) := by ring
          _ ≤ 128 * 2 ^ (7 * i) := this
        have h2 : (128 : Nat) * 2 ^ (7 * i) ≤ 2 ^ 64 := by
          have : (128 : Nat) * 2 ^ (7 * i) = 2 ^ (7 * i + 7) := by
            rw [pow_add]; ring
          rw [this]
          exact Nat.pow_le_pow_right (by omega) (by omega)
        omega
      rw [Nat.mod_eq_of_lt hlt]
      simp
    · rw [putUvarint_of_ge hv (by omega)] at hlen ⊢
      simp only [List.length_cons] at hlen
      simp only [List.cons_append, uvarintLoop]
      have hi10 : ¬ (i = 10) := by omega
      have hb : ¬ (v % 128 + 128 < 128) := by omega
      simp only [hi10, if_false, hb]
      have hmod : (v % 128 + 128) % 128 = v % 128 := by omega
      rw [hmod]
      have hx2 : x + v % 128 * 2 ^ (7 * i) < 2 ^ (7 * (i + 1)) := by
        have h1 : x + v % 128 * 2 ^ (7 * i) < 2 ^ (7 * i) + 127 * 2 ^ (7 * i) := by
          have : v % 128 ≤ 127 := by omega
          have := Nat.mul_le_mul_right (2 ^ (7 * i)) this
          omega
        have h2 : (2 : Nat) ^ (7 * i) + 127 * 2 ^ (7 * i) = 2 ^ (7 * (i + 1)) := by
          have : 7 * (i + 1) = 7 * i + 7 := by ring
          rw [this, pow_add]; ring
        omega
      have hlt64 : x + v % 128 * 2 ^ (7 * i) < 2 ^ 64 := by
        have : (2 : Nat) ^ (7 * (i + 1)) ≤ 2 ^ 64 :=
          Nat.pow_le_pow_right (by omega) (by omega)
        omega
      rw [lor_shiftLeft_eq_add hx, Nat.mod_eq_of_lt hlt64]
      have h7 : 7 * i + 7 = 7 * (i + 1) := by ring
      rw [h7]
      have hrec := ih (v / 128) (Nat.div_lt_self (by omega) (by omega)) l
        (x + v % 128 * 2 ^ (7 * i)) (i + 1) (by omega) (by omega) hx2
      simp only [List.append_eq] at hrec ⊢
      rw [hrec]
      simp only [Prod.mk.injEq, List.length_cons]
      refine ⟨?_, ?_⟩
      · have h128 : 2 ^ (7 * (i + 1)) = 2 ^ (7 * i) * 128 := by
          rw [show 7 * (i + 1) = 7 * i + 7 by ring, pow_add]; norm_num
        rw [h128]
        have hsplit : v = v % 128 + 128 * (v / 128) := by omega
        calc x + v % 128 * 2 ^ (7 * i) + v / 128 * (2 ^ (7 * i) * 128)
            = x + (v % 128 + 128 * (v / 128)) * 2 ^ (7 * i) := by ring
          _ = x + v * 2 ^ (7 * i) := by rw [← hsplit]
      · simp only [Int.ofNat_eq_coe]
        congr 1
        omega

/-- `goUvarint` decodes what `putUvarint` wrote (values below `2^32`). -/
theorem goUvarint_putUvarint {v : Nat} (hv : v < 2 ^ 32) (l : List Nat) :
    goUvarint (putUvarint v ++ l) = (v, Int.ofNat (putUvarint v).length) := by
  have hlen : (putUvarint v).length ≤ 5 := by
    rw [putUvarint_length hv]
    unfold getUvarintSize
    split_ifs <;> omega
  have := uvarintLoop_putUvarint v l 0 0 hv (by omega) (by norm_num)
  unfold goUvarint
  simpa using this

/-! ### The byte-ring queue (`queue/bytes_queue.go`) -/

/-- Go's `copy(arr[pos:], data)`: overwrite `min (len data) (len arr - pos)`
bytes of `arr` starting at `pos`; the rest of `arr` is untouched. -/
def listCopy (arr : Bytes) (pos : Nat) (data : Bytes) : Bytes :=
  arr.take pos ++ data.take (arr.length - pos) ++
    arr.drop (pos + min data.length (arr.length - pos))

/-- `queueError` values of `bytes_queue.go` (plus the `Full queue` error
returned by `Push`). -/
inductive QueueError where
  | emptyQueue
  | invalidIndex
  | indexOutOfBounds
  | fullQueue
deriving Repr, DecidableEq

/-- `BytesQueue` state.  `leftMarginIndex = 1`; the scratch `headerBuffer`
is invisible functionally (it is fully overwritten before each use) and is
therefore not part of the state. -/
structure BytesQueue where
  full : Bool
  array : Bytes
  capacity : Nat
  maxCapacity : Nat
  head : Nat
  tail : Nat
  count : Nat
  rightMargin : Nat
  verbose : Bool
deriving Repr, DecidableEq

/-- `minimumHeaderSize = 17` of `bytes_queue.go`. -/
def minimumHeaderSize : Nat := 17

/-- `leftMarginIndex = 1` of `bytes_queue.go`. -/
def leftMarginIndex : Nat := 1

/-- `NewBytesQueue(capacity, maxCapacity, verbose)`. -/
def NewBytesQueue (capacity maxCapacity : Nat) (verbose : Bool) : BytesQueue :=
  { full := false
    array := List.replicate capacity 0
    capacity := capacity
    maxCapacity := maxCapacity
    head := leftMarginIndex
    tail := leftMarginIndex
    count := 0
    rightMargin := leftMarginIndex
    verbose := verbose }

/-- `Reset`. -/
def BytesQueue.Reset (q : BytesQueue) : BytesQueue :=
  { q with tail := leftMarginIndex, head := leftMarginIndex,
           rightMargin := leftMarginIndex, count := 0, full := false }

/-- The private method `copy` of `BytesQueue`: copy `data[:len]` at `tail`
and advance `tail` by the number of bytes copied. -/
def BytesQueue.qcopy (q : BytesQueue) (data : Bytes) (len : Nat) : BytesQueue :=
  { q with array := listCopy q.array q.tail (data.take len),
           tail := q.tail + min (data.take len).length (q.array.length - q.tail) }

/-- The private method `push` of `BytesQueue`: write the uvarint header and
the data at `tail`, update `rightMargin`/`full`, increment `count`. -/
def BytesQueue.lowPush (q : BytesQueue) (data : Bytes) (len : Nat) : BytesQueue :=
  let header := putUvarint len
  let q := q.qcopy header header.length
  let q := q.qcopy data len
  let q := if q.tail > q.head then { q with rightMargin := q.tail } else q
  let q := if q.tail = q.head then { q with full := true } else q
  { q with count := q.count + 1 }

/-- `canInsertAfterTail`.  Go compares `int`s; on the states these proofs
reach the quantities subtracted are in order, and for a positive `need`
a negative Go difference and the truncated `Nat` difference decide the
comparisons identically. -/
def BytesQueue.canInsertAfterTail (q : BytesQueue) (need : Nat) : Bool :=
  if q.full then false
  else if q.tail ≥ q.head then decide (q.capacity - q.tail ≥ need)
  else decide (q.head - q.tail = need ∨ q.head - q.tail ≥ need + minimumHeaderSize)

/-- `canInsertBeforeHead`. -/
def BytesQueue.canInsertBeforeHead (q : BytesQueue) (need : Nat) : Bool :=
  if q.full then false
  else if q.tail ≥ q.head then
    decide (q.head - leftMarginIndex = need ∨
      q.head - leftMarginIndex ≥ need + minimumHeaderSize)
  else decide (q.head - q.tail = need ∨ q.head - q.tail ≥ need + minimumHeaderSize)

/-- `allocateAdditionalMemory`: double the capacity (after raising it by
`minimum` if it was below `minimum`), clamp to `maxCapacity`, copy the live
region, and if the queue was wrapped write the filler blob and linearize. -/
def BytesQueue.allocateAdditionalMemory (q : BytesQueue) (minimum : Nat) : BytesQueue :=
  let cap1 := if q.capacity < minimum then q.capacity + minimum else q.capacity
  let cap2 := cap1 * 2
  let cap3 := if cap2 > q.maxCapacity ∧ q.maxCapacity > 0 then q.maxCapacity else cap2
  let oldArray := q.array
  let q := { q with capacity := cap3, array := List.replicate cap3 0 }
  let q :=
    if leftMarginIndex ≠ q.rightMargin then
      let q := { q with array := listCopy q.array 0 (oldArray.take q.rightMargin) }
      if q.tail ≤ q.head then
        if q.tail ≠ q.head then
          let headerEntrySize := getUvarintSize ((q.head - q.tail) % 2 ^ 32)
          let emptyBlobLen := q.head - q.tail - headerEntrySize
          let q := q.lowPush (List.replicate emptyBlobLen 0) emptyBlobLen
          { q with head := leftMarginIndex, tail := q.rightMargin }
        else { q with head := leftMarginIndex, tail := q.rightMargin }
      else q
    else q
  { q with full := false }

/-- `Push(data)`: returns the index of the written header or `Full queue`. -/
def BytesQueue.Push (q : BytesQueue) (data : Bytes) : Except QueueError (Nat × BytesQueue) :=
  let dataLen := data.length
  let headerEntrySize := getUvarintSize (dataLen % 2 ^ 32)
  if ¬ q.canInsertAfterTail (dataLen + headerEntrySize) then
    if q.canInsertBeforeHead (dataLen + headerEntrySize) then
      let q := { q with tail := leftMarginIndex }
      .ok (q.tail, q.lowPush data dataLen)
    else if q.capacity + headerEntrySize + dataLen ≥ q.maxCapacity ∧ q.maxCapacity > 0 then
      .error .fullQueue
    else
      let q := q.allocateAdditionalMemory (dataLen + headerEntrySize)
      .ok (q.tail, q.lowPush data dataLen)
  else
    .ok (q.tail, q.lowPush data dataLen)

/-- `peekCheckErr(index)`. -/
def BytesQueue.peekCheckErr (q : BytesQueue) (index : Nat) : Option QueueError :=
  if q.count = 0 then some .emptyQueue
  else if index ≤ 0 then some .invalidIndex
  else if index ≥ q.array.length then some .indexOutOfBounds
  else none

/-- The private `peek(index)`: decode the uvarint at `index` and return the
payload together with the header size. -/
def BytesQueue.peekAt (q : BytesQueue) (index : Nat) : Except QueueError (Bytes × Nat) :=
  match q.peekCheckErr index with
  | some e => .error e
  | none =>
    let r := goUvarint (q.array.drop index)
    .ok (((q.array.drop (index + r.2.toNat)).take r.1, r.2.toNat))

/-- `Pop()`. -/
def BytesQueue.Pop (q : BytesQueue) : Except QueueError (Bytes × BytesQueue) :=
  match q.peekAt q.head with
  | .error e => .error e
  | .ok (data, headerEntrySize) =>
    let size := data.length
    let q := { q with head := q.head + headerEntrySize + size, count := q.count - 1 }
    let q :=
      if q.head = q.rightMargin then
        let q := { q with head := leftMarginIndex }
        let q := if q.tail = q.rightMargin then { q with tail := leftMarginIndex } else q
        { q with rightMargin := q.tail }
      else q
    .ok (data, { q with full := false })

/-- `Peek()`. -/
def BytesQueue.Peek (q : BytesQueue) : Except QueueError Bytes :=
  (q.peekAt q.head).map Prod.fst

/-- `Get(index)`. -/
def BytesQueue.Get (q : BytesQueue) (index : Nat) : Except QueueError Bytes :=
  (q.peekAt index).map Prod.fst

/-- `CheckGet(index)`. -/
def BytesQueue.CheckGet (q : BytesQueue) (index : Nat) : Option QueueError :=
  q.peekCheckErr index

/-- `Capacity()`. -/
def BytesQueue.Capacity (q : BytesQueue) : Nat := q.capacity

/-- `Len()`. -/
def BytesQueue.Len (q : BytesQueue) : Nat := q.count


/-! ### Linear-state representation of the queue

States reachable from an empty queue by pushes (and then pops) are
*linear*: the live region is a single run `[head, tail)` of varint-prefixed
records, `rightMargin = tail`.  `QRepr q off ps` says `q` holds exactly the
payloads `ps`, starting `off` bytes after the left margin. -/

/-- A record as written by `push`: uvarint length prefix followed by the
payload bytes. -/
def encodeRec (p : Bytes) : Bytes := putUvarint p.length ++ p

/-- Concatenation of the encoded records of a payload list. -/
def encodeAll : List Bytes → Bytes
  | [] => []
  | p :: ps => encodeRec p ++ encodeAll ps

theorem encodeAll_append (a b : List Bytes) :
    encodeAll (a ++ b) = encodeAll a ++ encodeAll b := by
  induction a with
  | nil => simp [encodeAll]
  | cons p ps ih => simp [encodeAll, ih]

theorem putUvarint_length_pos (x : Nat) : 0 < (putUvarint x).length := by
  rw [putUvarint, show (10 : Nat) = 9 + 1 from rfl, putUvarintFuel]
  split <;> simp

theorem encodeRec_length_pos (p : Bytes) : 0 < (encodeRec p).length := by
  unfold encodeRec
  have := putUvarint_length_pos p.length
  simp only [List.length_append]
  omega

theorem encodeAll_length_pos {ps : List Bytes} (h : ps ≠ []) :
    0 < (encodeAll ps).length := by
  cases ps with
  | nil => exact absurd rfl h
  | cons p ps =>
    have := encodeRec_length_pos p
    simp only [encodeAll, List.length_append]
    omega

/-- The linear representation invariant. -/
structure QRepr (q : BytesQueue) (off : Nat) (ps : List Bytes) : Prop where
  harr : q.array.length = q.capacity
  hhead : q.head = 1 + off
  htail : q.tail = 1 + off + (encodeAll ps).length
  hmargin : q.rightMargin = q.tail
  hcap : ps ≠ [] → q.tail ≤ q.capacity
  hcount : q.count = ps.length
  hfull : q.full = false
  hdata : (q.array.drop q.head).take (encodeAll ps).length = encodeAll ps

theorem QRepr_new (cap maxCap : Nat) (verbose : Bool) :
    QRepr (NewBytesQueue cap maxCap verbose) 0 [] := by
  refine ⟨?_, ?_, ?_, ?_, ?_, ?_, ?_, ?_⟩ <;>
    simp [NewBytesQueue, leftMarginIndex, encodeAll]

/-! #### `listCopy` and `lowPush` under enough room -/

theorem listCopy_fits {arr : Bytes} {pos : Nat} {data : Bytes}
    (h : pos + data.length ≤ arr.length) :
    listCopy arr pos data = arr.take pos ++ data ++ arr.drop (pos + data.length) := by
  unfold listCopy
  have h1 : data.take (arr.length - pos) = data := List.take_of_length_le (by omega)
  have h2 : min data.length (arr.length - pos) = data.length := by omega
  rw [h1, h2]

theorem listCopy_fits_length {arr : Bytes} {pos : Nat} {data : Bytes}
    (h : pos + data.length ≤ arr.length) :
    (listCopy arr pos data).length = arr.length := by
  rw [listCopy_fits h]
  simp only [List.length_append, List.length_take, List.length_drop]
  omega

/-- Effect of the private `push` on a linear state with room after the tail:
the encoded record is written at `tail`, which advances past it and drags
`rightMargin` along; the queue does not become full. -/
theorem lowPush_spec (q : BytesQueue) (data : Bytes)
    (hroom : q.tail + (encodeRec data).length ≤ q.array.length)
    (hht : q.head ≤ q.tail) :
    q.lowPush data data.length =
      { q with
        array := q.array.take q.tail ++ encodeRec data ++
                 q.array.drop (q.tail + (encodeRec data).length),
        tail := q.tail + (encodeRec data).length,
        rightMargin := q.tail + (encodeRec data).length,
        count := q.count + 1 } := by
  have hdlen : (putUvarint data.length).length + data.length = (encodeRec data).length := by
    simp [encodeRec]
  unfold BytesQueue.lowPush BytesQueue.qcopy
  have htk : (putUvarint data.length).take (putUvarint data.length).length
      = putUvarint data.length := List.take_of_length_le (le_refl _)
  have hdk : data.take data.length = data := List.take_of_length_le (le_refl _)
  simp only [htk, hdk]
  have hmin1 : min (putUvarint data.length).length (q.array.length - q.tail)
      = (putUvarint data.length).length := by omega
  have harr1 : listCopy q.array q.tail (putUvarint data.length)
      = q.array.take q.tail ++ putUvarint data.length ++
        q.array.drop (q.tail + (putUvarint data.length).length) :=
    listCopy_fits (by omega)
  have hlen1 : (listCopy q.array q.tail (putUvarint data.length)).length
      = q.array.length := listCopy_fits_length (by omega)
  simp only [hmin1, harr1, hlen1]
  have hlen2 : (q.array.take q.tail ++ putUvarint data.length ++
      q.array.drop (q.tail + (putUvarint data.length).length)).length
      = q.array.length := by
    simp only [List.length_append, List.length_take, List.length_drop]
    omega
  have hmin2 : min data.length
      ((q.array.take q.tail ++ putUvarint data.length ++
        q.array.drop (q.tail + (putUvarint data.length).length)).length -
        (q.tail + (putUvarint data.length).length)) = data.length := by
    rw [hlen2]; omega
  have hpre : (q.array.take q.tail ++ putUvarint data.length ++
      q.array.drop (q.tail + (putUvarint data.length).length)).take
        (q.tail + (putUvarint data.length).length)
      = q.array.take q.tail ++ putUvarint data.length := by
    refine List.take_left' ?_
    simp only [List.length_append, List.length_take]
    omega
  have hpost : (q.array.take q.tail ++ putUvarint data.length ++
      q.array.drop (q.tail + (putUvarint data.length).length)).drop
        (q.tail + (putUvarint data.length).length + data.length)
      = q.array.drop (q.tail + (encodeRec data).length) := by
    have hsplit : q.tail + (putUvarint data.length).length + data.length
        = (q.array.take q.tail ++ putUvarint data.length).length + data.length := by
      simp only [List.length_append, List.length_take]
      omega
    rw [hsplit, List.drop_append, List.drop_drop]
    congr 1
    omega
  have harr2 : listCopy
      (q.array.take q.tail ++ putUvarint data.length ++
        q.array.drop (q.tail + (putUvarint data.length).length))
      (q.tail + (putUvarint data.length).length) data
      = q.array.take q.tail ++ encodeRec data ++
        q.array.drop (q.tail + (encodeRec data).length) := by
    rw [listCopy_fits (by rw [hlen2]; omega), hpre, hpost, encodeRec]
    simp only [List.append_assoc]
  simp only [hmin2, harr2]
  have htail2 : q.tail + (putUvarint data.length).length + data.length
      = q.tail + (encodeRec data).length := by omega
  have hgt : (q.tail + (encodeRec data).length > q.head) := by
    have := encodeRec_length_pos data
    omega
  have hne : ¬ (q.tail + (encodeRec data).length = q.head) := by omega
  simp only [htail2, hgt, if_true, hne, if_false]

/-- `push` (private) preserves the linear representation, appending the
record. -/
theorem lowPush_repr (q : BytesQueue) (ps : List Bytes) (p : Bytes)
    (hq : QRepr q 0 ps) (hroom : q.tail + (encodeRec p).length ≤ q.capacity) :
    QRepr (q.lowPush p p.length) 0 (ps ++ [p]) := by
  obtain ⟨harr, hhead, htail, hmargin, hcap, hcount, hfull, hdata⟩ := hq
  have hht : q.head ≤ q.tail := by
    rw [hhead, htail]; omega
  have hspec := lowPush_spec q p (by rw [harr]; exact hroom) hht
  rw [hspec]
  have htot : (encodeAll (ps ++ [p])).length
      = (encodeAll ps).length + (encodeRec p).length := by
    rw [encodeAll_append]
    simp [encodeAll]
  have htailarr : q.tail ≤ q.array.length := by rw [harr]; omega
  refine ⟨?_, ?_, ?_, ?_, ?_, ?_, ?_, ?_⟩ <;> dsimp only
  · simp only [List.length_append, List.length_take, List.length_drop]
    omega
  · exact hhead
  · rw [htot, htail]; omega
  · intro _
    omega
  · simp [hcount]
  · exact hfull
  · have hdrop : (q.array.take q.tail ++ encodeRec p ++
        q.array.drop (q.tail + (encodeRec p).length)).drop q.head
        = (q.array.drop q.head).take (q.tail - q.head) ++ encodeRec p ++
          q.array.drop (q.tail + (encodeRec p).length) := by
      rw [List.append_assoc, List.drop_append_eq_append_drop]
      have h1 : q.head - (q.array.take q.tail).length = 0 := by
        simp only [List.length_take]
        omega
      rw [h1, List.drop_take, List.drop_zero]
      simp [List.append_assoc]
    rw [hdrop]
    have hslice : (q.array.drop q.head).take (q.tail - q.head) = encodeAll ps := by
      have : q.tail - q.head = (encodeAll ps).length := by omega
      rw [this, hdata]
    rw [hslice, htot]
    have hlen1 : (encodeAll ps ++ encodeRec p).length
        = (encodeAll ps).length + (encodeRec p).length := by
      simp
    rw [← hlen1, List.take_left, encodeAll_append]
    simp [encodeAll]

/-- `allocateAdditionalMemory` on a linear state: the records and cursors
are unchanged, the capacity becomes at least `tail + minimum`. -/
theorem allocate_linear (q : BytesQueue) (ps : List Bytes) (minimum : Nat)
    (hq : QRepr q 0 ps) (hmin : 1 ≤ minimum)
    (hnf : q.maxCapacity = 0 ∨ q.capacity + minimum < q.maxCapacity) :
    QRepr (q.allocateAdditionalMemory minimum) 0 ps ∧
    (q.allocateAdditionalMemory minimum).tail = q.tail ∧
    (q.allocateAdditionalMemory minimum).head = q.head ∧
    q.tail + minimum ≤ (q.allocateAdditionalMemory minimum).capacity ∧
    (q.allocateAdditionalMemory minimum).maxCapacity = q.maxCapacity := by
  obtain ⟨harr, hhead, htail, hmargin, hcap, hcount, hfull, hdata⟩ := hq
  have hps : q.tail = 1 ∨ q.tail ≤ q.capacity := by
    rcases List.eq_nil_or_concat ps with hnil | hcons
    · left
      subst hnil
      simp only [encodeAll, List.length_nil] at htail
      omega
    · right
      refine hcap ?_
      rcases hcons with ⟨a, b, rfl⟩
      simp
  unfold BytesQueue.allocateAdditionalMemory
  dsimp only
  set cap1 := if q.capacity < minimum then q.capacity + minimum else q.capacity with hc1
  set cap3 := if cap1 * 2 > q.maxCapacity ∧ q.maxCapacity > 0 then q.maxCapacity
    else cap1 * 2 with hc3
  have hfact : q.tail + minimum ≤ cap1 * 2 := by
    rcases hps with h1 | h1 <;> (rw [hc1]; split <;> omega)
  have hcaple : q.capacity ≤ cap1 * 2 := by
    rw [hc1]; split <;> omega
  have hcap3 : q.capacity ≤ cap3 ∧ q.tail + minimum ≤ cap3 := by
    rw [hc3]
    split
    · rcases hnf with h0 | hlt2
      · omega
      · rcases hps with h1 | h1 <;> constructor <;> omega
    · constructor <;> omega
  rcases List.eq_nil_or_concat ps with hnil | hcons
  · subst hnil
    simp only [encodeAll, List.length_nil, Nat.add_zero] at htail
    have hrm : ¬ (leftMarginIndex ≠ q.rightMargin) := by
      rw [hmargin, htail]
      simp [leftMarginIndex]
    rw [if_neg hrm]
    refine ⟨⟨?_, ?_, ?_, ?_, ?_, ?_, ?_, ?_⟩, rfl, rfl, hcap3.2, rfl⟩
    · show (List.replicate cap3 (0 : Nat)).length = cap3
      simp
    · exact hhead
    · show q.tail = 1 + 0 + (encodeAll ([] : List Bytes)).length
      simpa [encodeAll] using htail
    · exact hmargin
    · intro h
      exact absurd rfl h
    · simpa using hcount
    · rfl
    · show ((List.replicate cap3 (0 : Nat)).drop q.head).take
          (encodeAll ([] : List Bytes)).length = encodeAll ([] : List Bytes)
      simp [encodeAll]
  · have hne : ps ≠ [] := by
      rcases hcons with ⟨a, b, rfl⟩
      simp
    have htpos : 0 < (encodeAll ps).length := encodeAll_length_pos hne
    have hrm : (leftMarginIndex ≠ q.rightMargin) := by
      rw [hmargin, htail, leftMarginIndex]
      omega
    rw [if_pos hrm]
    have htlecap : q.tail ≤ q.capacity := hcap hne
    have hdlen : (q.array.take q.rightMargin).length = q.rightMargin := by
      simp only [List.length_take]
      rw [hmargin]
      omega
    have hfits : (0 : Nat) + (q.array.take q.rightMargin).length
        ≤ (List.replicate cap3 (0 : Nat)).length := by
      rw [hdlen, List.length_replicate, hmargin]
      omega
    have hcopy : listCopy (List.replicate cap3 (0 : Nat)) 0 (q.array.take q.rightMargin)
        = q.array.take q.rightMargin ++ List.replicate (cap3 - q.rightMargin) 0 := by
      rw [listCopy_fits hfits]
      simp only [List.take_zero, List.drop_replicate, List.nil_append, Nat.zero_add]
      rw [hdlen]
    have hth : ¬ (q.tail ≤ q.head) := by
      rw [hhead, htail]
      omega
    rw [hcopy, if_neg hth]
    refine ⟨⟨?_, ?_, ?_, ?_, ?_, ?_, ?_, ?_⟩, rfl, rfl, hcap3.2, rfl⟩
    · show (q.array.take q.rightMargin ++ List.replicate (cap3 - q.rightMargin) 0).length
        = cap3
      simp only [List.length_append, List.length_take, List.length_replicate]
      rw [hmargin]
      omega
    · exact hhead
    · exact htail
    · exact hmargin
    · intro _
      show q.tail ≤ cap3
      omega
    · exact hcount
    · rfl
    · show ((q.array.take q.rightMargin ++
          List.replicate (cap3 - q.rightMargin) 0).drop q.head).take
          (encodeAll ps).length = encodeAll ps
      have hdrop : (q.array.take q.rightMargin ++
          List.replicate (cap3 - q.rightMargin) 0).drop q.head
          = (q.array.drop q.head).take (q.rightMargin - q.head) ++
            List.replicate (cap3 - q.rightMargin) 0 := by
        rw [List.drop_append_eq_append_drop]
        have h1 : q.head - (q.array.take q.rightMargin).length = 0 := by
          rw [hdlen, hmargin, hhead, htail]
          omega
        rw [h1, List.drop_take, List.drop_zero]
      rw [hdrop]
      have hslice : (q.array.drop q.head).take (q.rightMargin - q.head)
          = encodeAll ps := by
        have h2 : q.rightMargin - q.head = (encodeAll ps).length := by
          rw [hmargin, hhead, htail]
          omega
        rw [h2, hdata]
      rw [hslice]
      rw [List.take_append_eq_append_take, List.take_of_length_le (le_refl _),
        Nat.sub_self, List.take_zero, List.append_nil]

theorem canInsertAfterTail_linear (q : BytesQueue) (ps : List Bytes) (n : Nat)
    (hq : QRepr q 0 ps) :
    q.canInsertAfterTail n = decide (q.capacity - q.tail ≥ n) := by
  obtain ⟨harr, hhead, htail, hmargin, hcap, hcount, hfull, hdata⟩ := hq
  unfold BytesQueue.canInsertAfterTail
  rw [hfull]
  rw [if_neg (by simp)]
  rw [if_pos (by rw [hhead, htail]; omega)]

theorem canInsertBeforeHead_linear (q : BytesQueue) (ps : List Bytes) (n : Nat)
    (hq : QRepr q 0 ps) (hn : 1 ≤ n) :
    q.canInsertBeforeHead n = false := by
  obtain ⟨harr, hhead, htail, hmargin, hcap, hcount, hfull, hdata⟩ := hq
  unfold BytesQueue.canInsertBeforeHead
  rw [hfull]
  rw [if_neg (by simp)]
  rw [if_pos (by rw [hhead, htail]; omega)]
  rw [hhead]
  simp only [leftMarginIndex, decide_eq_false_iff_not]
  omega

/-- `Push` on a linear state: when it succeeds it returns the offset just
past the existing records and appends the new record, whatever combination
of direct insertion and regrowth it used. -/
theorem Push_linear (q : BytesQueue) (ps : List Bytes) (p : Bytes)
    (hq : QRepr q 0 ps) (hp : p.length < 2 ^ 32) {i : Nat} {q2 : BytesQueue}
    (hpush : q.Push p = .ok (i, q2)) :
    i = 1 + (encodeAll ps).length ∧ QRepr q2 0 (ps ++ [p]) := by
  have hsize : getUvarintSize (p.length % 2 ^ 32) = (putUvarint p.length).length := by
    rw [Nat.mod_eq_of_lt hp, putUvarint_length hp]
  have hn : p.length + getUvarintSize (p.length % 2 ^ 32) = (encodeRec p).length := by
    rw [hsize]
    simp [encodeRec]
    omega
  have hn1 : 1 ≤ p.length + getUvarintSize (p.length % 2 ^ 32) := by
    rw [hn]
    exact encodeRec_length_pos p
  have htail0 : q.tail = 1 + (encodeAll ps).length := by
    rw [hq.htail]
  by_cases hAT : q.canInsertAfterTail (p.length + getUvarintSize (p.length % 2 ^ 32)) = true
  · have hred : q.Push p = .ok (q.tail, q.lowPush p p.length) := by
      unfold BytesQueue.Push
      dsimp only
      rw [if_neg (not_not_intro hAT)]
    rw [hred] at hpush
    simp only [Except.ok.injEq, Prod.mk.injEq] at hpush
    obtain ⟨hi, hq2⟩ := hpush
    have hroom : q.tail + (encodeRec p).length ≤ q.capacity := by
      rw [canInsertAfterTail_linear q ps _ hq] at hAT
      simp only [decide_eq_true_eq] at hAT
      omega
    refine ⟨by rw [← hi, htail0], ?_⟩
    rw [← hq2]
    exact lowPush_repr q ps p hq hroom
  · have hBH : q.canInsertBeforeHead (p.length + getUvarintSize (p.length % 2 ^ 32))
        = false := canInsertBeforeHead_linear q ps _ hq hn1
    by_cases hfc : q.capacity + getUvarintSize (p.length % 2 ^ 32) + p.length
        ≥ q.maxCapacity ∧ q.maxCapacity > 0
    · exfalso
      have hred : q.Push p = .error .fullQueue := by
        unfold BytesQueue.Push
        dsimp only
        rw [if_pos hAT, if_neg (fun hcon => Bool.false_ne_true (hBH ▸ hcon)),
          if_pos hfc]
      rw [hred] at hpush
      exact Except.noConfusion hpush
    · have hred : q.Push p =
          .ok ((q.allocateAdditionalMemory
                  (p.length + getUvarintSize (p.length % 2 ^ 32))).tail,
               (q.allocateAdditionalMemory
                  (p.length + getUvarintSize (p.length % 2 ^ 32))).lowPush p p.length) := by
        unfold BytesQueue.Push
        dsimp only
        rw [if_pos hAT, if_neg (fun hcon => Bool.false_ne_true (hBH ▸ hcon)),
          if_neg hfc]
      rw [hred] at hpush
      simp only [Except.ok.injEq, Prod.mk.injEq] at hpush
      obtain ⟨hi, hq2⟩ := hpush
      have hnf : q.maxCapacity = 0 ∨
          q.capacity + (p.length + getUvarintSize (p.length % 2 ^ 32)) < q.maxCapacity := by
        rcases Nat.eq_zero_or_pos q.maxCapacity with h0 | hpos
        · exact Or.inl h0
        · right
          rcases not_and_or.mp hfc with h | h
          · omega
          · exact absurd hpos h
      obtain ⟨hqa, hta, hha, hca, hma⟩ :=
        allocate_linear q ps (p.length + getUvarintSize (p.length % 2 ^ 32)) hq hn1 hnf
      have hroom : (q.allocateAdditionalMemory
            (p.length + getUvarintSize (p.length % 2 ^ 32))).tail + (encodeRec p).length
          ≤ (q.allocateAdditionalMemory
            (p.length + getUvarintSize (p.length % 2 ^ 32))).capacity := by
        rw [hta, ← hn]
        omega
      refine ⟨by rw [← hi, hta, htail0], ?_⟩
      rw [← hq2]
      exact lowPush_repr _ ps p hqa hroom

/-- The live region of a linear state decomposes as the encoded records
followed by whatever trails them in the buffer. -/
theorem QRepr_drop_head (q : BytesQueue) (off : Nat) (ps : List Bytes)
    (hq : QRepr q off ps) :
    q.array.drop q.head
      = encodeAll ps ++ (q.array.drop q.head).drop (encodeAll ps).length := by
  conv =>
    lhs
    rw [← List.take_append_drop (encodeAll ps).length (q.array.drop q.head)]
  rw [hq.hdata]

theorem int_toNat_ofNat (n : Nat) : (Int.ofNat n).toNat = n := rfl

/-- `Pop` on a nonempty linear state returns the first record and drops it;
popping the last record resets the cursors to the left margin. -/
theorem Pop_linear (q : BytesQueue) (off : Nat) (p : Bytes) (ps : List Bytes)
    (hq : QRepr q off (p :: ps)) (hp : p.length < 2 ^ 32) :
    ∃ q2, q.Pop = .ok (p, q2) ∧
      QRepr q2 (if ps = [] then 0 else off + (encodeRec p).length) ps := by
  have harr := hq.harr
  have hhead := hq.hhead
  have htail := hq.htail
  have hmargin := hq.hmargin
  have hcap := hq.hcap (by simp)
  have hcount := hq.hcount
  have hfull := hq.hfull
  have hlt : (encodeAll (p :: ps)).length
      = (encodeRec p).length + (encodeAll ps).length := by
    simp [encodeAll]
  have hepos := encodeRec_length_pos p
  have hdrop : q.array.drop q.head
      = putUvarint p.length ++ (p ++ (encodeAll ps ++
          (q.array.drop q.head).drop (encodeAll (p :: ps)).length)) := by
    rw [QRepr_drop_head q off (p :: ps) hq]
    simp [encodeAll, encodeRec, List.append_assoc]
  set J := (q.array.drop q.head).drop (encodeAll (p :: ps)).length with hJ
  have hchk : q.peekCheckErr q.head = none := by
    unfold BytesQueue.peekCheckErr
    rw [if_neg (by rw [hcount]; simp), if_neg (by omega),
      if_neg (by push_neg; rw [hhead]; omega)]
  have hvar : goUvarint (q.array.drop q.head)
      = (p.length, Int.ofNat (putUvarint p.length).length) := by
    rw [hdrop]
    exact goUvarint_putUvarint hp _
  have hrest : (q.array.drop (q.head + (putUvarint p.length).length))
      = p ++ (encodeAll ps ++ J) := by
    have h1 : q.array.drop (q.head + (putUvarint p.length).length)
        = (q.array.drop q.head).drop (putUvarint p.length).length := by
      rw [List.drop_drop]
    rw [h1, hdrop, List.drop_left]
  have hpeek : q.peekAt q.head = .ok (p, (putUvarint p.length).length) := by
    unfold BytesQueue.peekAt
    rw [hchk]
    dsimp only
    rw [hvar]
    dsimp only
    rw [int_toNat_ofNat, hrest, List.take_left]
  have hpop : q.Pop = .ok (p,
      let qa := { q with head := q.head + (putUvarint p.length).length + p.length,
                         count := q.count - 1 }
      let qb :=
        if qa.head = qa.rightMargin then
          let qc := { qa with head := leftMarginIndex }
          let qd := if qc.tail = qc.rightMargin then { qc with tail := leftMarginIndex }
            else qc
          { qd with rightMargin := qd.tail }
        else qa
      { qb with full := false }) := by
    unfold BytesQueue.Pop
    rw [hpeek]
  rcases List.eq_nil_or_concat ps with hnil | hcons
  · subst hnil
    refine ⟨_, hpop, ?_⟩
    have hcond : q.head + (putUvarint p.length).length + p.length = q.rightMargin := by
      rw [hmargin, htail, hhead]
      simp [encodeAll, encodeRec]
      omega
    rw [if_pos rfl]
    dsimp only
    rw [if_pos hcond]
    dsimp only
    rw [if_pos hmargin.symm]
    refine ⟨?_, ?_, ?_, ?_, ?_, ?_, ?_, ?_⟩ <;>
      simp [leftMarginIndex, encodeAll, harr, hcount]
  · have hne : ps ≠ [] := by
      rcases hcons with ⟨a, b, rfl⟩
      simp
    have hpos2 := encodeAll_length_pos hne
    refine ⟨_, hpop, ?_⟩
    rw [if_neg hne]
    dsimp only
    have hcond : ¬ (q.head + (putUvarint p.length).length + p.length = q.rightMargin) := by
      rw [hmargin, htail, hhead, hlt]
      simp only [encodeRec, List.length_append]
      omega
    rw [if_neg hcond]
    have hh2 : q.head + (putUvarint p.length).length + p.length
        = 1 + (off + (encodeRec p).length) := by
      rw [hhead]
      simp [encodeRec]
      omega
    refine ⟨harr, hh2, ?_, hmargin, fun _ => ?_, ?_, rfl, ?_⟩
    · rw [htail, hlt]
      omega
    · exact hcap
    · rw [hcount]
      simp
    · have h3 : q.array.drop (q.head + (putUvarint p.length).length + p.length)
          = encodeAll ps ++ J := by
        have h4 : q.array.drop (q.head + (putUvarint p.length).length + p.length)
            = ((q.array.drop (q.head + (putUvarint p.length).length)).drop p.length) := by
          rw [List.drop_drop]
        rw [h4, hrest, List.drop_left]
      show (q.array.drop (q.head + (putUvarint p.length).length + p.length)).take
          (encodeAll ps).length = encodeAll ps
      rw [h3, List.take_append_eq_append_take, List.take_of_length_le (le_refl _),
        Nat.sub_self, List.take_zero, List.append_nil]

/-- `Get` on a linear state: the offset just past the first `m` records
reads back the `m`-th payload. -/
theorem Get_linear (q : BytesQueue) (off : Nat) (ps : List Bytes)
    (hq : QRepr q off ps) (m : Nat) (hm : m < ps.length)
    (hp : (ps.getD m []).length < 2 ^ 32) :
    q.Get (1 + off + (encodeAll (ps.take m)).length) = .ok (ps.getD m []) := by
  have harr := hq.harr
  have hhead := hq.hhead
  have htail := hq.htail
  have hcap := hq.hcap (by intro h; rw [h] at hm; simp at hm)
  have hcount := hq.hcount
  have hsplit : ps = ps.take m ++ (ps.getD m [] :: ps.drop (m + 1)) := by
    rw [List.getD_eq_getElem ps [] hm, ← List.drop_eq_getElem_cons hm]
    exact (List.take_append_drop m ps).symm
  have henc : encodeAll ps = encodeAll (ps.take m) ++
      (putUvarint (ps.getD m []).length ++ ((ps.getD m []) ++
        encodeAll (ps.drop (m + 1)))) := by
    conv =>
      lhs
      rw [hsplit]
    rw [encodeAll_append]
    simp [encodeAll, encodeRec, List.append_assoc]
  have hlen1 : (encodeAll (ps.take m)).length + ((putUvarint (ps.getD m []).length).length
      + ((ps.getD m []).length + (encodeAll (ps.drop (m + 1))).length))
      = (encodeAll ps).length := by
    rw [henc]
    simp
  obtain ⟨J, hQ⟩ : ∃ J, q.array.drop q.head = encodeAll ps ++ J :=
    ⟨_, QRepr_drop_head q off ps hq⟩
  have hidx : 1 + off + (encodeAll (ps.take m)).length = q.head +
      (encodeAll (ps.take m)).length := by
    rw [hhead]
  have h2 : q.array.drop q.head = encodeAll (ps.take m) ++
      ((putUvarint (ps.getD m []).length ++ ((ps.getD m []) ++
        encodeAll (ps.drop (m + 1)))) ++ J) := by
    rw [hQ]
    conv =>
      lhs
      rw [henc]
    rw [List.append_assoc]
  have hdropidx : q.array.drop (q.head + (encodeAll (ps.take m)).length)
      = putUvarint (ps.getD m []).length ++ ((ps.getD m []) ++
        (encodeAll (ps.drop (m + 1)) ++ J)) := by
    have h1 : q.array.drop (q.head + (encodeAll (ps.take m)).length)
        = (q.array.drop q.head).drop (encodeAll (ps.take m)).length := by
      rw [List.drop_drop]
    rw [h1, h2, List.drop_left]
    simp only [List.append_assoc]
  have hchk : q.peekCheckErr (1 + off + (encodeAll (ps.take m)).length) = none := by
    have hppos := encodeRec_length_pos (ps.getD m [])
    have hup : (encodeAll (ps.take m)).length +
        (encodeRec (ps.getD m [])).length ≤ (encodeAll ps).length := by
      simp only [encodeRec, List.length_append] at *
      omega
    unfold BytesQueue.peekCheckErr
    rw [if_neg (by rw [hcount]; omega), if_neg (by omega), if_neg ?_]
    push_neg
    simp only [encodeRec, List.length_append] at hup hppos
    omega
  have hfinal : q.array.drop (q.head + (encodeAll (ps.take m)).length +
      (putUvarint (ps.getD m []).length).length)
      = ps.getD m [] ++ (encodeAll (ps.drop (m + 1)) ++ J) := by
    have h3 : q.array.drop (q.head + (encodeAll (ps.take m)).length +
        (putUvarint (ps.getD m []).length).length)
        = (q.array.drop (q.head + (encodeAll (ps.take m)).length)).drop
            (putUvarint (ps.getD m []).length).length := by
      rw [List.drop_drop]
    rw [h3, hdropidx, List.drop_left]
  unfold BytesQueue.Get BytesQueue.peekAt
  rw [hchk]
  dsimp only
  rw [hidx, hdropidx, goUvarint_putUvarint hp]
  dsimp only
  rw [int_toNat_ofNat, hfinal, List.take_left]
  rfl

/-- Push a list of payloads in order; returns the final queue, the returned
indices, and whether every push succeeded. -/
def pushAll (q : BytesQueue) : List Bytes → BytesQueue × List Nat × Bool
  | [] => (q, [], true)
  | p :: ps =>
    match q.Push p with
    | .ok (i, q2) =>
      let r := pushAll q2 ps
      (r.1, i :: r.2.1, r.2.2)
    | .error _ => (q, [], false)

/-- The indices `Push` hands back in a linear run: each record starts just
past the previously pushed ones. -/
def pushIndices (done : List Bytes) : List Bytes → List Nat
  | [] => []
  | p :: ps => (1 + (encodeAll done).length) :: pushIndices (done ++ [p]) ps

/-- Pop `n` records, collecting the returned payloads. -/
def popAll (q : BytesQueue) : Nat → List Bytes × BytesQueue
  | 0 => ([], q)
  | n + 1 =>
    match q.Pop with
    | .ok (d, q2) =>
      let r := popAll q2 n
      (d :: r.1, r.2)
    | .error _ => ([], q)

theorem pushAll_linear (ps : List Bytes) : ∀ (q : BytesQueue) (done : List Bytes),
    QRepr q 0 done → (∀ p ∈ ps, p.length < 2 ^ 32) →
    (pushAll q ps).2.2 = true →
    QRepr (pushAll q ps).1 0 (done ++ ps) ∧ (pushAll q ps).2.1 = pushIndices done ps := by
  induction ps with
  | nil =>
    intro q done hq _ _
    simp only [pushAll, pushIndices, List.append_nil]
    exact ⟨hq, by trivial⟩
  | cons p ps ih =>
    intro q done hq hlens hok
    cases hpp : q.Push p with
    | error e =>
      rw [pushAll, hpp] at hok
      simp at hok
    | ok v =>
      obtain ⟨i, q2⟩ := v
      rw [pushAll, hpp] at hok ⊢
      dsimp only at hok ⊢
      obtain ⟨hi, hq2⟩ := Push_linear q done p hq (hlens p (by simp)) hpp
      obtain ⟨hrec1, hrec2⟩ := ih q2 (done ++ [p]) hq2
        (fun x hx => hlens x (by simp [hx])) hok
      rw [List.append_assoc] at hrec1
      simp only [List.cons_append, List.nil_append] at hrec1
      refine ⟨hrec1, ?_⟩
      rw [pushIndices]
      rw [hrec2, hi]

theorem popAll_linear (ps : List Bytes) : ∀ (q : BytesQueue) (off : Nat),
    QRepr q off ps → (∀ p ∈ ps, p.length < 2 ^ 32) →
    (popAll q ps.length).1 = ps ∧ ∃ off2, QRepr (popAll q ps.length).2 off2 [] := by
  induction ps with
  | nil =>
    intro q off hq _
    simp only [List.length_nil, popAll]
    exact ⟨by trivial, off, hq⟩
  | cons p ps ih =>
    intro q off hq hlens
    obtain ⟨q2, hpop, hq2⟩ := Pop_linear q off p ps hq (hlens p (by simp))
    simp only [List.length_cons, popAll, hpop]
    rcases List.eq_nil_or_concat ps with hnil | hcons
    · subst hnil
      rw [if_pos rfl] at hq2
      simp only [List.length_nil, popAll]
      exact ⟨by trivial, 0, hq2⟩
    · have hne : ps ≠ [] := by
        rcases hcons with ⟨a, b, rfl⟩
        simp
      rw [if_neg hne] at hq2
      obtain ⟨h1, h2⟩ := ih q2 _ hq2 (fun x hx => hlens x (by simp [hx]))
      rw [h1]
      exact ⟨by trivial, h2⟩

theorem pushIndices_getD : ∀ (ps : List Bytes) (done : List Bytes) (j : Nat),
    j < ps.length →
    (pushIndices done ps).getD j 0 = 1 + (encodeAll (done ++ ps.take j)).length := by
  intro ps
  induction ps with
  | nil =>
    intro done j hj
    simp at hj
  | cons p ps ih =>
    intro done j hj
    cases j with
    | zero =>
      simp [pushIndices]
    | succ j =>
      rw [pushIndices]
      simp only [List.getD_cons_succ]
      rw [ih (done ++ [p]) j (by simpa using hj)]
      congr 2
      simp [List.append_assoc]

theorem popAll_partial : ∀ (k : Nat) (ps : List Bytes) (q : BytesQueue) (off : Nat),
    QRepr q off ps → (∀ p ∈ ps, p.length < 2 ^ 32) → k < ps.length →
    QRepr (popAll q k).2 (off + (encodeAll (ps.take k)).length) (ps.drop k) := by
  intro k
  induction k with
  | zero =>
    intro ps q off hq _ _
    simpa [popAll, encodeAll] using hq
  | succ k ih =>
    intro ps q off hq hlens hk
    cases ps with
    | nil => simp at hk
    | cons p rest =>
      have hrest : rest ≠ [] := by
        intro h
        rw [h] at hk
        simp at hk
      obtain ⟨q2, hpop, hq2⟩ := Pop_linear q off p rest hq (hlens p (by simp))
      rw [if_neg hrest] at hq2
      simp only [popAll, hpop]
      have := ih rest q2 (off + (encodeRec p).length) hq2
        (fun x hx => hlens x (by simp [hx])) (by simpa using hk)
      simp only [List.drop_succ_cons, List.take_succ_cons]
      have heq : off + (encodeRec p).length + (encodeAll (rest.take k)).length
          = off + (encodeAll (p :: rest.take k)).length := by
        simp [encodeAll]
        omega
      rw [← heq]
      exact this

/-- C1 (**Push/Pop FIFO**): pushing a list of distinct payloads onto a fresh
queue without any push being rejected, then popping them all, returns them
in push order and leaves the queue empty. -/
theorem c1_fifo_push_pop (ps : List Bytes) (cap maxCap : Nat)
    (hlen : ∀ p ∈ ps, p.length < 2 ^ 32)
    (_hdist : ps.Pairwise (· ≠ ·))
    (hok : (pushAll (NewBytesQueue cap maxCap false) ps).2.2 = true) :
    (popAll (pushAll (NewBytesQueue cap maxCap false) ps).1 ps.length).1 = ps ∧
    ((popAll (pushAll (NewBytesQueue cap maxCap false) ps).1 ps.length).2).Len = 0 := by
  obtain ⟨hrepr, _⟩ := pushAll_linear ps (NewBytesQueue cap maxCap false) []
    (QRepr_new cap maxCap false) hlen hok
  rw [List.nil_append] at hrepr
  obtain ⟨hpopped, off2, hfinal⟩ := popAll_linear ps _ 0 hrepr hlen
  refine ⟨hpopped, ?_⟩
  show (popAll (pushAll (NewBytesQueue cap maxCap false) ps).1 ps.length).2.count = 0
  rw [hfinal.hcount]
  rfl

/-- C1 witness input. -/
theorem c1_fifo_push_pop_witness :
    ((∀ p ∈ [[1], [2, 3]], List.length p < 2 ^ 32) ∧
      ([[1], [2, 3]] : List Bytes).Pairwise (· ≠ ·) ∧
      (pushAll (NewBytesQueue 4 0 false) [[1], [2, 3]]).2.2 = true) ∧
    ((popAll (pushAll (NewBytesQueue 4 0 false) [[1], [2, 3]]).1 2).1 = [[1], [2, 3]] ∧
      ((popAll (pushAll (NewBytesQueue 4 0 false) [[1], [2, 3]]).1 2).2).Len = 0) :=
  ⟨⟨by decide, by decide, by decide⟩,
    c1_fifo_push_pop [[1], [2, 3]] 4 0 (by decide) (by decide) (by decide)⟩

/-- C2 (**Index stability**): after pushing payloads onto a fresh queue
(each push succeeding), the index returned for the `j`-th payload still
reads back that payload with `Get` after any `k ≤ j` of the older records
have been popped — in particular across all the later pushes, none of which
wrapped, and across any regrowth they caused. -/
theorem c2_index_stability (ps : List Bytes) (cap maxCap : Nat)
    (hlen : ∀ p ∈ ps, p.length < 2 ^ 32)
    (hok : (pushAll (NewBytesQueue cap maxCap false) ps).2.2 = true)
    (j k : Nat) (hj : j < ps.length) (hk : k ≤ j) :
    ((popAll (pushAll (NewBytesQueue cap maxCap false) ps).1 k).2).Get
        ((pushAll (NewBytesQueue cap maxCap false) ps).2.1.getD j 0)
      = .ok (ps.getD j []) := by
  obtain ⟨hrepr, hidxs⟩ := pushAll_linear ps (NewBytesQueue cap maxCap false) []
    (QRepr_new cap maxCap false) hlen hok
  rw [List.nil_append] at hrepr
  rw [hidxs, pushIndices_getD ps [] j hj, List.nil_append]
  have hkrepr := popAll_partial k ps _ 0 hrepr hlen (by omega)
  have hjk : j - k < (ps.drop k).length := by
    rw [List.length_drop]
    omega
  have hgd : (ps.drop k).getD (j - k) [] = ps.getD j [] := by
    rw [List.getD_eq_getElem _ [] hjk, List.getD_eq_getElem _ [] hj,
      List.getElem_drop]
    congr 1
    omega
  have hglin := Get_linear (popAll (pushAll (NewBytesQueue cap maxCap false) ps).1 k).2
    (0 + (encodeAll (ps.take k)).length) (ps.drop k) hkrepr (j - k) hjk
    (by rw [hgd]; exact hlen _ (by
      rw [List.getD_eq_getElem _ [] hj]
      exact List.getElem_mem hj))
  rw [hgd] at hglin
  have hidxeq : 1 + (encodeAll (ps.take j)).length
      = 1 + (0 + (encodeAll (ps.take k)).length) +
        (encodeAll ((ps.drop k).take (j - k))).length := by
    have hsplit2 : ps.take j = ps.take k ++ (ps.drop k).take (j - k) := by
      have h4 : j = k + (j - k) := by omega
      rw [h4, List.take_add]
      have h3 : k + (j - k) - k = j - k := by omega
      rw [h3]
    rw [hsplit2, encodeAll_append]
    simp only [List.length_append]
    omega
  rw [hidxeq]
  exact hglin

/-- C2 witness input. -/
theorem c2_index_stability_witness :
    ((∀ p ∈ [[1], [2, 3]], List.length p < 2 ^ 32) ∧
      (pushAll (NewBytesQueue 4 0 false) [[1], [2, 3]]).2.2 = true ∧
      1 < ([[1], [2, 3]] : List Bytes).length ∧ 1 ≤ 1) ∧
    ((popAll (pushAll (NewBytesQueue 4 0 false) [[1], [2, 3]]).1 1).2).Get
        ((pushAll (NewBytesQueue 4 0 false) [[1], [2, 3]]).2.1.getD 1 0)
      = .ok ([[1], [2, 3]].getD 1 []) :=
  ⟨⟨by decide, by decide, by decide, by decide⟩,
    c2_index_stability [[1], [2, 3]] 4 0 (by decide) (by decide) 1 1
      (by decide) (by decide)⟩

instance exceptDecEq {ε α : Type} [DecidableEq ε] [DecidableEq α] :
    DecidableEq (Except ε α) := fun x y =>
  match x, y with
  | .error a, .error b =>
    if h : a = b then .isTrue (by rw [h]) else .isFalse (fun hc => h (Except.error.inj hc))
  | .ok a, .ok b =>
    if h : a = b then .isTrue (by rw [h]) else .isFalse (fun hc => h (Except.ok.inj hc))
  | .error _, .ok _ => .isFalse (fun hc => Except.noConfusion hc)
  | .ok _, .error _ => .isFalse (fun hc => Except.noConfusion hc)

theorem lowPush_capacity (q : BytesQueue) (data : Bytes) (len : Nat) :
    (q.lowPush data len).capacity = q.capacity := by
  unfold BytesQueue.lowPush BytesQueue.qcopy
  dsimp only
  split_ifs <;> rfl

/-- What `allocateAdditionalMemory` actually does to the capacity: raise it
by `minimum` first when it is below `minimum`, then double, then clamp. -/
theorem allocate_capacity (q : BytesQueue) (minimum : Nat) :
    (q.allocateAdditionalMemory minimum).capacity =
      (if (if q.capacity < minimum then q.capacity + minimum else q.capacity) * 2
            > q.maxCapacity ∧ q.maxCapacity > 0
       then q.maxCapacity
       else (if q.capacity < minimum then q.capacity + minimum else q.capacity) * 2) := by
  unfold BytesQueue.allocateAdditionalMemory
  dsimp only
  split
  · split
    · split
      · dsimp only
        rw [lowPush_capacity]
      · rfl
    · rfl
  · rfl

/-- C3 counterexample: on a queue of capacity `C = 10`, pushing a 16-byte
payload (`n + h = 17`) grows the capacity to `(10 + 17) * 2 = 54`, not to
`max(10, 17) * 2 = 34` as the claim states. -/
theorem c3_counterexample :
    (((NewBytesQueue 10 0 false).Push (List.replicate 16 0)).map
        (fun r => r.2.capacity)).toOption = some 54 ∧
      max 10 (16 + getUvarintSize 16) * 2 = 34 ∧ (54 : Nat) ≠ 34 := by
  refine ⟨by decide, by decide, by decide⟩

/-- C3 (amended): when a push can be placed neither after the tail nor
before the head and growth is permitted, the new capacity is
`C' = (if C < n+h then C + (n+h) else C) * 2`, clamped to `maxCapacity`
when `maxCapacity > 0` (equal to `max(C, n+h) * 2` only when `C ≥ n+h`). -/
theorem c3_grow_capacity (q : BytesQueue) (data : Bytes)
    (hAT : q.canInsertAfterTail
      (data.length + getUvarintSize (data.length % 2 ^ 32)) = false)
    (hBH : q.canInsertBeforeHead
      (data.length + getUvarintSize (data.length % 2 ^ 32)) = false)
    (hnf : ¬ (q.capacity + getUvarintSize (data.length % 2 ^ 32) + data.length
      ≥ q.maxCapacity ∧ q.maxCapacity > 0)) :
    (q.Push data).map (fun r => r.2.capacity) =
      .ok (if (if q.capacity < data.length + getUvarintSize (data.length % 2 ^ 32)
                then q.capacity + (data.length + getUvarintSize (data.length % 2 ^ 32))
                else q.capacity) * 2 > q.maxCapacity ∧ q.maxCapacity > 0
           then q.maxCapacity
           else (if q.capacity < data.length + getUvarintSize (data.length % 2 ^ 32)
                  then q.capacity + (data.length + getUvarintSize (data.length % 2 ^ 32))
                  else q.capacity) * 2) := by
  unfold BytesQueue.Push
  dsimp only
  rw [if_pos (fun hcon => Bool.false_ne_true (hAT ▸ hcon)),
    if_neg (fun hcon => Bool.false_ne_true (hBH ▸ hcon)), if_neg hnf]
  dsimp only [Except.map]
  rw [lowPush_capacity, allocate_capacity]

/-- C3 witness input. -/
theorem c3_grow_capacity_witness :
    ((NewBytesQueue 10 0 false).canInsertAfterTail
      ((List.replicate 16 (0 : Nat)).length +
        getUvarintSize ((List.replicate 16 (0 : Nat)).length % 2 ^ 32)) = false ∧
     (NewBytesQueue 10 0 false).canInsertBeforeHead
      ((List.replicate 16 (0 : Nat)).length +
        getUvarintSize ((List.replicate 16 (0 : Nat)).length % 2 ^ 32)) = false ∧
     ¬ ((NewBytesQueue 10 0 false).capacity +
        getUvarintSize ((List.replicate 16 (0 : Nat)).length % 2 ^ 32) +
        (List.replicate 16 (0 : Nat)).length ≥ (NewBytesQueue 10 0 false).maxCapacity ∧
        (NewBytesQueue 10 0 false).maxCapacity > 0)) ∧
    ((NewBytesQueue 10 0 false).Push (List.replicate 16 0)).map
        (fun r => r.2.capacity) =
      .ok (if (if (NewBytesQueue 10 0 false).capacity <
                (List.replicate 16 (0 : Nat)).length +
                  getUvarintSize ((List.replicate 16 (0 : Nat)).length % 2 ^ 32)
              then (NewBytesQueue 10 0 false).capacity +
                ((List.replicate 16 (0 : Nat)).length +
                  getUvarintSize ((List.replicate 16 (0 : Nat)).length % 2 ^ 32))
              else (NewBytesQueue 10 0 false).capacity) * 2
              > (NewBytesQueue 10 0 false).maxCapacity ∧
              (NewBytesQueue 10 0 false).maxCapacity > 0
           then (NewBytesQueue 10 0 false).maxCapacity
           else (if (NewBytesQueue 10 0 false).capacity <
                  (List.replicate 16 (0 : Nat)).length +
                    getUvarintSize ((List.replicate 16 (0 : Nat)).length % 2 ^ 32)
                then (NewBytesQueue 10 0 false).capacity +
                  ((List.replicate 16 (0 : Nat)).length +
                    getUvarintSize ((List.replicate 16 (0 : Nat)).length % 2 ^ 32))
                else (NewBytesQueue 10 0 false).capacity) * 2) :=
  ⟨⟨by decide, by decide, by decide⟩,
    c3_grow_capacity (NewBytesQueue 10 0 false) (List.replicate 16 0)
      (by decide) (by decide) (by decide)⟩

/-! ### Entry codec (`encoding.go`) -/

/-- `timestampSizeInBytes`. -/
def timestampSizeInBytes : Nat := 8

/-- `hashSizeInBytes`. -/
def hashSizeInBytes : Nat := 8

/-- `keySizeInBytes`. -/
def keySizeInBytes : Nat := 2

/-- `headersSizeInBytes`. -/
def headersSizeInBytes : Nat := timestampSizeInBytes + hashSizeInBytes + keySizeInBytes

/-- `wrapEntry`: timestamp (8) ++ key hash (8) ++ key length (2, truncated
to `uint16`) ++ key ++ value.  The scratch buffer is fully overwritten up to
the returned length and thus not part of the state. -/
def wrapEntry (timestamp hash : Nat) (key entry : Bytes) : Bytes :=
  putUint64 timestamp ++ putUint64 hash ++ putUint16 key.length ++ key ++ entry

/-- `appendToWrappedEntry`: fresh timestamp, then everything after the old
timestamp, then the extra bytes. -/
def appendToWrappedEntry (timestamp : Nat) (wrappedEntry entry : Bytes) : Bytes :=
  putUint64 timestamp ++ wrappedEntry.drop timestampSizeInBytes ++ entry

/-- `readEntry`: the value bytes (copy-on-read). -/
def readEntry (data : Bytes) : Bytes :=
  data.drop (headersSizeInBytes +
    readUint16 (data.drop (timestampSizeInBytes + hashSizeInBytes)))

/-- `readTimestampFromEntry`. -/
def readTimestampFromEntry (data : Bytes) : Nat := readUint64 data

/-- `readKeyFromEntry` (copy-on-read). -/
def readKeyFromEntry (data : Bytes) : Bytes :=
  (data.drop headersSizeInBytes).take
    (readUint16 (data.drop (timestampSizeInBytes + hashSizeInBytes)))

/-- `compareKeyFromEntry` (no copy). -/
def compareKeyFromEntry (data : Bytes) (key : Bytes) : Bool :=
  (data.drop headersSizeInBytes).take
    (readUint16 (data.drop (timestampSizeInBytes + hashSizeInBytes))) == key

/-- `readHashFromEntry`. -/
def readHashFromEntry (data : Bytes) : Nat := readUint64 (data.drop timestampSizeInBytes)

/-- `resetKeyFromEntry` applied to the aliased slice `Get(index)` returns:
eight zero bytes are written over the hash field of the record stored at
`index`, i.e. at buffer offsets `[index+n+8, index+n+16)` where `n` is the
size of the record's varint prefix. -/
def resetKeyAtIndex (q : BytesQueue) (index : Nat) : BytesQueue :=
  let n := (goUvarint (q.array.drop index)).2.toNat
  { q with array := listCopy q.array (index + n + timestampSizeInBytes) (putUint64 0) }

/-! ### The shard (`shard.go`) -/

/-- `RemoveReason` is a `uint32` in the source; `Response.EntryStatus`
defaults to `0`. -/
abbrev RemoveReason := Nat

/-- `Expired = RemoveReason(1)`. -/
def Expired : RemoveReason := 1

/-- `NoSpace = RemoveReason(2)`. -/
def NoSpace : RemoveReason := 2

/-- `Deleted = RemoveReason(3)`. -/
def Deleted : RemoveReason := 3

/-- Errors a shard operation can surface: `ErrEntryNotFound`, the
`"entry is bigger than max shard size"` error, or a queue error passed
through. -/
inductive ShardError where
  | entryNotFound
  | entryTooLarge
  | queueErr (e : QueueError)
deriving Repr, DecidableEq

/-- Go map lookup misses yield the zero value, so the `hash → index` map is
a total function with `0` meaning absent.  Assignment: -/
def mapInsert (m : Nat → Nat) (k v : Nat) : Nat → Nat :=
  fun x => if x = k then v else m x

/-- `delete(m, k)`: afterwards lookups of `k` yield the zero value. -/
def mapDelete (m : Nat → Nat) (k : Nat) : Nat → Nat :=
  fun x => if x = k then 0 else m x

/-- Go `uint64` subtraction `a - b` (two's complement wraparound). -/
def u64sub (a b : Nat) : Nat := (a % 2 ^ 64 + (2 ^ 64 - b % 2 ^ 64)) % 2 ^ 64

/-- `cacheShard` state.  The `onRemove` callback is modelled by the
`removed` log: one entry per callback invocation, in order.  Locks are
identities under the sequential semantics. -/
structure CacheShard where
  hashmap : Nat → Nat
  entries : BytesQueue
  lifeWindow : Nat
  statsEnabled : Bool
  hashmapStats : Nat → Nat
  hits : Nat
  misses : Nat
  delHits : Nat
  delMisses : Nat
  collisions : Nat
  removed : List (Bytes × RemoveReason)

/-- `initNewShard`, with `config.initialShardSize() * config.MaxEntrySize`
and `config.maximumShardSizeInBytes()` taken as parameters (`config.go` is
not part of this corpus); the clamp of the initial capacity to the maximum
is performed here as in the source. -/
def initShard (initialCapacity maximumShardSizeInBytes lifeWindow : Nat)
    (statsEnabled : Bool) : CacheShard :=
  let bytesQueueInitialCapacity :=
    if maximumShardSizeInBytes > 0 ∧ initialCapacity > maximumShardSizeInBytes
    then maximumShardSizeInBytes else initialCapacity
  { hashmap := fun _ => 0
    entries := NewBytesQueue bytesQueueInitialCapacity maximumShardSizeInBytes false
    lifeWindow := lifeWindow
    statsEnabled := statsEnabled
    hashmapStats := fun _ => 0
    hits := 0
    misses := 0
    delHits := 0
    delMisses := 0
    collisions := 0
    removed := [] }

/-- `hit` (the `hashmapStats` counter is a `uint32`). -/
def CacheShard.hit (s : CacheShard) (key : Nat) : CacheShard :=
  let s := { s with hits := s.hits + 1 }
  if s.statsEnabled then
    { s with hashmapStats := mapInsert s.hashmapStats key ((s.hashmapStats key + 1) % 2 ^ 32) }
  else s

/-- `hitWithoutLock`. -/
def CacheShard.hitWithoutLock (s : CacheShard) (key : Nat) : CacheShard :=
  let s := { s with hits := s.hits + 1 }
  if s.statsEnabled then
    { s with hashmapStats := mapInsert s.hashmapStats key ((s.hashmapStats key + 1) % 2 ^ 32) }
  else s

/-- `getWrappedEntry`. -/
def CacheShard.getWrappedEntry (s : CacheShard) (hashedKey : Nat) :
    Except ShardError Bytes × CacheShard :=
  let itemIndex := s.hashmap hashedKey
  if itemIndex = 0 then
    (.error .entryNotFound, { s with misses := s.misses + 1 })
  else
    match s.entries.Get itemIndex with
    | .error e => (.error (.queueErr e), { s with misses := s.misses + 1 })
    | .ok wrappedEntry => (.ok wrappedEntry, s)

/-- `get`. -/
def CacheShard.get (s : CacheShard) (key : Bytes) (hashedKey : Nat) :
    Except ShardError Bytes × CacheShard :=
  match s.getWrappedEntry hashedKey with
  | (.error e, s2) => (.error e, s2)
  | (.ok wrappedEntry, s2) =>
    if readKeyFromEntry wrappedEntry ≠ key then
      (.error .entryNotFound, { s2 with collisions := s2.collisions + 1 })
    else
      (.ok (readEntry wrappedEntry), s2.hit hashedKey)

/-- `getWithInfo`; the second component of the result is the
`Response.EntryStatus` (`0` or `Expired`). -/
def CacheShard.getWithInfo (s : CacheShard) (key : Bytes) (hashedKey : Nat)
    (currentTime : Nat) : Except ShardError (Bytes × Nat) × CacheShard :=
  match s.getWrappedEntry hashedKey with
  | (.error e, s2) => (.error e, s2)
  | (.ok wrappedEntry, s2) =>
    if readKeyFromEntry wrappedEntry ≠ key then
      (.error .entryNotFound, { s2 with collisions := s2.collisions + 1 })
    else
      let oldestTimeStamp := readTimestampFromEntry wrappedEntry
      let status := if u64sub currentTime oldestTimeStamp ≥ s2.lifeWindow
        then Expired else 0
      (.ok (readEntry wrappedEntry, status), s2.hit hashedKey)

/-- `getValidWrapEntry`. -/
def CacheShard.getValidWrapEntry (s : CacheShard) (key : Bytes) (hashedKey : Nat) :
    Except ShardError Bytes × CacheShard :=
  match s.getWrappedEntry hashedKey with
  | (.error e, s2) => (.error e, s2)
  | (.ok wrappedEntry, s2) =>
    if ¬ compareKeyFromEntry wrappedEntry key then
      (.error .entryNotFound, { s2 with collisions := s2.collisions + 1 })
    else
      (.ok wrappedEntry, s2.hitWithoutLock hashedKey)

/-- `removeOldestEntry`: pop, skip tombstones (hash `0`), otherwise delete
the map entry and fire the callback. -/
def CacheShard.removeOldestEntry (s : CacheShard) (reason : RemoveReason) :
    Except QueueError CacheShard :=
  match s.entries.Pop with
  | .error e => .error e
  | .ok (oldest, q) =>
    let hash := readHashFromEntry oldest
    if hash = 0 then .ok { s with entries := q }
    else
      let s2 := { s with entries := q, hashmap := mapDelete s.hashmap hash,
                         removed := s.removed ++ [(oldest, reason)] }
      if s2.statsEnabled then
        .ok { s2 with hashmapStats := mapDelete s2.hashmapStats hash }
      else .ok s2

/-- The time test of `onEvict`: evict iff `now - ts > lifeWindow` in
`uint64` arithmetic. -/
def CacheShard.onEvictCheck (s : CacheShard) (oldestEntry : Bytes)
    (currentTimestamp : Nat) : Bool :=
  u64sub currentTimestamp (readTimestampFromEntry oldestEntry) > s.lifeWindow

/-- The `Peek`-then-`onEvict(…, s.removeOldestEntry)` step at the top of
`set`/`addNewWithoutLock`/`setWrappedEntryWithoutLock`; `onEvict` discards
the eviction error. -/
def CacheShard.evictOldestIfExpired (s : CacheShard) (currentTimestamp : Nat) :
    CacheShard :=
  match s.entries.Peek with
  | .error _ => s
  | .ok oldestEntry =>
    if s.onEvictCheck oldestEntry currentTimestamp then
      match s.removeOldestEntry Expired with
      | .ok s2 => s2
      | .error _ => s
    else s

/-- The retry loop shared by `set`/`addNewWithoutLock`/
`setWrappedEntryWithoutLock`: push, and on failure evict the oldest record
with reason `NoSpace` and retry; if even the pop fails, give up with the
"entry is bigger than max shard size" error.  Each failing round pops a
record, so `count + 1` rounds of fuel make the fuelled loop exact. -/
def CacheShard.pushLoop : Nat → CacheShard → Bytes → Nat → Option ShardError × CacheShard
  | 0, s, _, _ => (some .entryTooLarge, s)
  | fuel + 1, s, w, hashedKey =>
    match s.entries.Push w with
    | .ok (index, q) =>
      (none, { s with entries := q,
                      hashmap := mapInsert s.hashmap hashedKey (index % 2 ^ 32) })
    | .error _ =>
      match s.removeOldestEntry NoSpace with
      | .ok s2 => CacheShard.pushLoop fuel s2 w hashedKey
      | .error _ => (some .entryTooLarge, s)

/-- `set`. -/
def CacheShard.set (s : CacheShard) (key : Bytes) (hashedKey : Nat) (entry : Bytes)
    (currentTimestamp : Nat) : Option ShardError × CacheShard :=
  let s :=
    if s.hashmap hashedKey ≠ 0 then
      match s.entries.Get (s.hashmap hashedKey) with
      | .ok _ => { s with entries := resetKeyAtIndex s.entries (s.hashmap hashedKey) }
      | .error _ => s
    else s
  let s := s.evictOldestIfExpired currentTimestamp
  let w := wrapEntry currentTimestamp hashedKey key entry
  CacheShard.pushLoop (s.entries.count + 1) s w hashedKey

/-- `addNewWithoutLock`. -/
def CacheShard.addNewWithoutLock (s : CacheShard) (key : Bytes) (hashedKey : Nat)
    (entry : Bytes) (currentTimestamp : Nat) : Option ShardError × CacheShard :=
  let s := s.evictOldestIfExpired currentTimestamp
  let w := wrapEntry currentTimestamp hashedKey key entry
  CacheShard.pushLoop (s.entries.count + 1) s w hashedKey

/-- `setWrappedEntryWithoutLock`. -/
def CacheShard.setWrappedEntryWithoutLock (s : CacheShard) (currentTimestamp : Nat)
    (w : Bytes) (hashedKey : Nat) : Option ShardError × CacheShard :=
  let s :=
    if s.hashmap hashedKey ≠ 0 then
      match s.entries.Get (s.hashmap hashedKey) with
      | .ok _ => { s with entries := resetKeyAtIndex s.entries (s.hashmap hashedKey) }
      | .error _ => s
    else s
  let s := s.evictOldestIfExpired currentTimestamp
  CacheShard.pushLoop (s.entries.count + 1) s w hashedKey

/-- `append`. -/
def CacheShard.append (s : CacheShard) (key : Bytes) (hashedKey : Nat) (entry : Bytes)
    (currentTimestamp : Nat) : Option ShardError × CacheShard :=
  match s.getValidWrapEntry key hashedKey with
  | (.error .entryNotFound, s2) => s2.addNewWithoutLock key hashedKey entry currentTimestamp
  | (.error e, s2) => (some e, s2)
  | (.ok wrappedEntry, s2) =>
    let w := appendToWrappedEntry currentTimestamp wrappedEntry entry
    s2.setWrappedEntryWithoutLock currentTimestamp w hashedKey

/-- `del`, with its optimistic read-locked pre-check followed by the
write-locked re-check (sequentially the state is unchanged in between). -/
def CacheShard.del (s : CacheShard) (hashedKey : Nat) : Option ShardError × CacheShard :=
  let itemIndex := s.hashmap hashedKey
  if itemIndex = 0 then
    (some .entryNotFound, { s with delMisses := s.delMisses + 1 })
  else
    match s.entries.CheckGet itemIndex with
    | some e => (some (.queueErr e), { s with delMisses := s.delMisses + 1 })
    | none =>
      let itemIndex2 := s.hashmap hashedKey
      if itemIndex2 = 0 then
        (some .entryNotFound, { s with delMisses := s.delMisses + 1 })
      else
        match s.entries.Get itemIndex2 with
        | .error e => (some (.queueErr e), { s with delMisses := s.delMisses + 1 })
        | .ok wrappedEntry =>
          let s2 := { s with hashmap := mapDelete s.hashmap hashedKey,
                             removed := s.removed ++ [(wrappedEntry, Deleted)] }
          let s3 := if s2.statsEnabled
            then { s2 with hashmapStats := mapDelete s2.hashmapStats hashedKey }
            else s2
          let s4 := { s3 with entries := resetKeyAtIndex s3.entries itemIndex2 }
          (none, { s4 with delHits := s4.delHits + 1 })

/-- The loop of `cleanUp`: peek, and while the oldest record is expired,
evict it with reason `Expired`.  Each eviction pops a record, so `count + 1`
rounds of fuel make the fuelled loop exact. -/
def CacheShard.cleanUpLoop : Nat → CacheShard → Nat → CacheShard
  | 0, s, _ => s
  | fuel + 1, s, currentTimestamp =>
    match s.entries.Peek with
    | .error _ => s
    | .ok oldestEntry =>
      if s.onEvictCheck oldestEntry currentTimestamp then
        match s.removeOldestEntry Expired with
        | .ok s2 => CacheShard.cleanUpLoop fuel s2 currentTimestamp
        | .error _ => CacheShard.cleanUpLoop fuel s currentTimestamp
      else s

/-- `cleanUp`. -/
def CacheShard.cleanUp (s : CacheShard) (currentTimestamp : Nat) : CacheShard :=
  CacheShard.cleanUpLoop (s.entries.count + 1) s currentTimestamp

/-! ### Front-cache validation (`bigcache.go` / `utils.go`) -/

/-- `isPowerOfTwo` from `utils.go`: `(number & (number - 1)) == 0` on a Go
`int`. -/
def isPowerOfTwo (number : Int) : Bool := number.land (number - 1) == 0

/-- `newBigCache` rejects the configuration with the
`"Shards number must be power of two"` error exactly when this is `false`;
no other validation is performed on `config.Shards`. -/
def newBigCacheOk (shards : Int) : Bool := isPowerOfTwo shards

theorem Peek_empty (q : BytesQueue) (off : Nat) (hq : QRepr q off []) :
    q.Peek = .error .emptyQueue := by
  unfold BytesQueue.Peek BytesQueue.peekAt BytesQueue.peekCheckErr
  rw [if_pos (by rw [hq.hcount]; rfl)]
  rfl

theorem Peek_linear (q : BytesQueue) (off : Nat) (p : Bytes) (ps : List Bytes)
    (hq : QRepr q off (p :: ps)) (hp : p.length < 2 ^ 32) :
    q.Peek = .ok p := by
  obtain ⟨q2, hpop, _⟩ := Pop_linear q off p ps hq hp
  unfold BytesQueue.Pop at hpop
  unfold BytesQueue.Peek
  cases hpk : q.peekAt q.head with
  | error e =>
    rw [hpk] at hpop
    exact absurd hpop (by simp)
  | ok v =>
    rw [hpk] at hpop
    dsimp only at hpop
    simp only [Except.ok.injEq, Prod.mk.injEq] at hpop
    rw [Except.map, hpop.1]

theorem lowPush_maxCapacity (q : BytesQueue) (data : Bytes) (len : Nat) :
    (q.lowPush data len).maxCapacity = q.maxCapacity := by
  unfold BytesQueue.lowPush BytesQueue.qcopy
  dsimp only
  split_ifs <;> rfl

theorem allocate_maxCapacity (q : BytesQueue) (minimum : Nat) :
    (q.allocateAdditionalMemory minimum).maxCapacity = q.maxCapacity := by
  unfold BytesQueue.allocateAdditionalMemory
  dsimp only
  split
  · split
    · split
      · dsimp only
        rw [lowPush_maxCapacity]
      · rfl
    · rfl
  · rfl

theorem Push_maxCapacity {q : BytesQueue} {p : Bytes} {i : Nat} {q2 : BytesQueue}
    (hpush : q.Push p = .ok (i, q2)) : q2.maxCapacity = q.maxCapacity := by
  unfold BytesQueue.Push at hpush
  dsimp only at hpush
  split at hpush
  · split at hpush
    · simp only [Except.ok.injEq, Prod.mk.injEq] at hpush
      rw [← hpush.2, lowPush_maxCapacity]
    · split at hpush
      · exact absurd hpush (by simp)
      · simp only [Except.ok.injEq, Prod.mk.injEq] at hpush
        rw [← hpush.2, lowPush_maxCapacity, allocate_maxCapacity]
  · simp only [Except.ok.injEq, Prod.mk.injEq] at hpush
    rw [← hpush.2, lowPush_maxCapacity]

/-- On an unbounded queue (`maxCapacity = 0`) a linear-state push always
succeeds. -/
theorem Push_linear_total (q : BytesQueue) (ps : List Bytes) (p : Bytes)
    (hq : QRepr q 0 ps) (hp : p.length < 2 ^ 32) (hmc : q.maxCapacity = 0) :
    ∃ q2, q.Push p = .ok (1 + (encodeAll ps).length, q2) ∧
      QRepr q2 0 (ps ++ [p]) ∧ q2.maxCapacity = 0 := by
  have hok : ∃ i q2, q.Push p = .ok (i, q2) := by
    unfold BytesQueue.Push
    dsimp only
    by_cases hAT : q.canInsertAfterTail
        (p.length + getUvarintSize (p.length % 2 ^ 32)) = true
    · rw [if_neg (not_not_intro hAT)]
      exact ⟨_, _, rfl⟩
    · rw [if_pos hAT]
      by_cases hBH : q.canInsertBeforeHead
          (p.length + getUvarintSize (p.length % 2 ^ 32)) = true
      · rw [if_pos hBH]
        exact ⟨_, _, rfl⟩
      · rw [if_neg (fun hcon => hBH hcon), if_neg (by simp [hmc])]
        exact ⟨_, _, rfl⟩
  obtain ⟨i, q2, heq⟩ := hok
  obtain ⟨hi, hq2⟩ := Push_linear q ps p hq hp heq
  refine ⟨q2, by rw [heq, hi], hq2, ?_⟩
  rw [Push_maxCapacity heq, hmc]

/-- `set` on a shard whose map does not know the hash and whose queue is
empty and unbounded: the record is pushed at index `1` and registered. -/
theorem set_fresh (s : CacheShard) (key v : Bytes) (h t : Nat)
    (hmap : s.hashmap h = 0) (hq : QRepr s.entries 0 [])
    (hmc : s.entries.maxCapacity = 0)
    (hw : (wrapEntry t h key v).length < 2 ^ 32) :
    ∃ q2, s.set key h v t =
      (none, { s with entries := q2, hashmap := mapInsert s.hashmap h 1 }) ∧
      QRepr q2 0 [wrapEntry t h key v] ∧ q2.maxCapacity = 0 := by
  obtain ⟨q2, hpush, hq2, hq2m⟩ := Push_linear_total s.entries [] (wrapEntry t h key v)
    hq hw hmc
  refine ⟨q2, ?_, hq2, hq2m⟩
  unfold CacheShard.set
  dsimp only
  rw [if_neg (by simp [hmap])]
  unfold CacheShard.evictOldestIfExpired
  rw [Peek_empty s.entries 0 hq]
  have hcnt : s.entries.count = 0 := by
    rw [hq.hcount]
    rfl
  rw [hcnt]
  unfold CacheShard.pushLoop
  rw [hpush]
  dsimp only
  simp only [encodeAll, List.length_nil, Nat.add_zero]
  rfl

/-! #### Codec facts -/

theorem wrapEntry_length (t h : Nat) (k v : Bytes) :
    (wrapEntry t h k v).length = 18 + k.length + v.length := by
  simp [wrapEntry, putUint64, putUint16]
  omega

theorem putUint64_length (x : Nat) : (putUint64 x).length = 8 := by
  simp [putUint64]

theorem wrapEntry_reassoc (t h : Nat) (k v : Bytes) :
    wrapEntry t h k v
      = putUint64 t ++ (putUint64 h ++ (putUint16 k.length ++ (k ++ v))) := by
  unfold wrapEntry
  simp [List.append_assoc]

theorem readUint16_putUint16 (x : Nat) (r : Bytes) :
    readUint16 (putUint16 x ++ r) = x % 65536 := by
  simp [readUint16, putUint16]
  omega

theorem readUint64_putUint64 (x : Nat) (r : Bytes) :
    readUint64 (putUint64 x ++ r) = x % 2 ^ 64 := by
  simp [readUint64, putUint64]
  omega

theorem wrapEntry_drop_16 (t h : Nat) (k v : Bytes) :
    (wrapEntry t h k v).drop (timestampSizeInBytes + hashSizeInBytes)
      = putUint16 k.length ++ (k ++ v) := by
  rw [wrapEntry_reassoc, ← List.append_assoc]
  refine List.drop_left' ?_
  simp [putUint64, timestampSizeInBytes, hashSizeInBytes]

theorem wrapEntry_drop_18 (t h : Nat) (k v : Bytes) :
    (wrapEntry t h k v).drop headersSizeInBytes = k ++ v := by
  rw [wrapEntry_reassoc, ← List.append_assoc, ← List.append_assoc]
  refine List.drop_left' ?_
  simp [putUint64, putUint16, headersSizeInBytes, timestampSizeInBytes,
    hashSizeInBytes, keySizeInBytes]

theorem readKeyFromEntry_wrapEntry (t h : Nat) (k v : Bytes) :
    readKeyFromEntry (wrapEntry t h k v) = (k ++ v).take (k.length % 65536) := by
  unfold readKeyFromEntry
  rw [wrapEntry_drop_16, readUint16_putUint16, wrapEntry_drop_18]

theorem readKeyFromEntry_wrapEntry_short {k : Bytes} (t h : Nat) (v : Bytes)
    (hk : k.length < 65536) : readKeyFromEntry (wrapEntry t h k v) = k := by
  rw [readKeyFromEntry_wrapEntry, Nat.mod_eq_of_lt hk, List.take_left]

theorem readEntry_wrapEntry (t h : Nat) (k v : Bytes) :
    readEntry (wrapEntry t h k v) = (k ++ v).drop (k.length % 65536) := by
  unfold readEntry
  rw [wrapEntry_drop_16, readUint16_putUint16]
  have hd : headersSizeInBytes + k.length % 65536
      = headersSizeInBytes + k.length % 65536 := rfl
  rw [show (wrapEntry t h k v).drop (headersSizeInBytes + k.length % 65536)
      = ((wrapEntry t h k v).drop headersSizeInBytes).drop (k.length % 65536) by
    rw [List.drop_drop]]
  rw [wrapEntry_drop_18]

theorem readEntry_wrapEntry_short {k : Bytes} (t h : Nat) (v : Bytes)
    (hk : k.length < 65536) : readEntry (wrapEntry t h k v) = v := by
  rw [readEntry_wrapEntry, Nat.mod_eq_of_lt hk, List.drop_left]

theorem readTimestampFromEntry_wrapEntry (t h : Nat) (k v : Bytes) :
    readTimestampFromEntry (wrapEntry t h k v) = t % 2 ^ 64 := by
  unfold readTimestampFromEntry
  rw [wrapEntry_reassoc, readUint64_putUint64]

theorem readHashFromEntry_wrapEntry (t h : Nat) (k v : Bytes) :
    readHashFromEntry (wrapEntry t h k v) = h % 2 ^ 64 := by
  unfold readHashFromEntry
  rw [wrapEntry_reassoc]
  rw [List.drop_left' (show (putUint64 t).length = timestampSizeInBytes by
    simp [putUint64, timestampSizeInBytes]), readUint64_putUint64]

/-! #### `uint64` subtraction facts -/

theorem u64sub_of_le {a b : Nat} (hb : b ≤ a) (ha : a < 2 ^ 64) :
    u64sub a b = a - b := by
  unfold u64sub
  have hbl : b < 2 ^ 64 := lt_of_le_of_lt hb ha
  rw [Nat.mod_eq_of_lt ha, Nat.mod_eq_of_lt hbl]
  omega

theorem u64sub_pos_iff {a b : Nat} (ha : a < 2 ^ 64) (hb : b < 2 ^ 64) :
    0 < u64sub a b ↔ a ≠ b := by
  unfold u64sub
  rw [Nat.mod_eq_of_lt ha, Nat.mod_eq_of_lt hb]
  constructor <;> intro h <;> omega

/-! #### Single-record shard states -/

theorem Get_single (q : BytesQueue) (w : Bytes) (hq : QRepr q 0 [w])
    (hw : w.length < 2 ^ 32) : q.Get 1 = .ok w := by
  have := Get_linear q 0 [w] hq 0 (by simp) (by simpa using hw)
  simpa [encodeAll] using this

theorem CheckGet_single (q : BytesQueue) (w : Bytes) (hq : QRepr q 0 [w]) :
    q.CheckGet 1 = none := by
  unfold BytesQueue.CheckGet BytesQueue.peekCheckErr
  have hcap := hq.hcap (by simp)
  have hpos := encodeRec_length_pos w
  have htail := hq.htail
  have harr := hq.harr
  have htot : (encodeAll [w]).length = (encodeRec w).length := by
    simp [encodeAll]
  rw [if_neg (by rw [hq.hcount]; simp), if_neg (by omega), if_neg ?_]
  push_neg
  omega

theorem get_single (s : CacheShard) (w key : Bytes) (h : Nat)
    (hq : QRepr s.entries 0 [w]) (hmap : s.hashmap h = 1) (hw : w.length < 2 ^ 32) :
    s.get key h =
      if readKeyFromEntry w ≠ key
      then (.error .entryNotFound, { s with collisions := s.collisions + 1 })
      else (.ok (readEntry w), s.hit h) := by
  unfold CacheShard.get CacheShard.getWrappedEntry
  dsimp only
  rw [hmap, if_neg (by omega), Get_single s.entries w hq hw]

theorem getWithInfo_single (s : CacheShard) (w key : Bytes) (h currentTime : Nat)
    (hq : QRepr s.entries 0 [w]) (hmap : s.hashmap h = 1) (hw : w.length < 2 ^ 32) :
    s.getWithInfo key h currentTime =
      if readKeyFromEntry w ≠ key
      then (.error .entryNotFound, { s with collisions := s.collisions + 1 })
      else (.ok (readEntry w,
              if u64sub currentTime (readTimestampFromEntry w) ≥ s.lifeWindow
              then Expired else 0),
            s.hit h) := by
  unfold CacheShard.getWithInfo CacheShard.getWrappedEntry
  dsimp only
  rw [hmap, if_neg (by omega), Get_single s.entries w hq hw]

theorem hit_hashmap (s : CacheShard) (key : Nat) : (s.hit key).hashmap = s.hashmap := by
  unfold CacheShard.hit
  dsimp only
  split <;> rfl

theorem hit_entries (s : CacheShard) (key : Nat) : (s.hit key).entries = s.entries := by
  unfold CacheShard.hit
  dsimp only
  split <;> rfl

theorem hit_collisions (s : CacheShard) (key : Nat) :
    (s.hit key).collisions = s.collisions := by
  unfold CacheShard.hit
  dsimp only
  split <;> rfl

/-- `set` on a freshly initialized unbounded shard. -/
theorem set_initShard (cap lw : Nat) (se : Bool) (k v : Bytes) (h t0 : Nat)
    (hw : 18 + k.length + v.length < 2 ^ 32) :
    ∃ s1, (initShard cap 0 lw se).set k h v t0 = (none, s1) ∧
      QRepr s1.entries 0 [wrapEntry t0 h k v] ∧ s1.entries.maxCapacity = 0 ∧
      s1.hashmap h = 1 ∧ s1.hashmap = mapInsert (fun _ => 0) h 1 ∧
      s1.collisions = 0 ∧ s1.lifeWindow = lw ∧ s1.removed = [] ∧
      s1.delHits = 0 ∧ s1.delMisses = 0 ∧ s1.misses = 0 ∧
      s1.statsEnabled = se := by
  have hwlen : (wrapEntry t0 h k v).length < 2 ^ 32 := by
    rw [wrapEntry_length]
    omega
  obtain ⟨q2, hset, hq2, hq2m⟩ := set_fresh (initShard cap 0 lw se) k v h t0
    rfl (QRepr_new _ _ _) rfl hwlen
  refine ⟨_, hset, hq2, hq2m, by simp [mapInsert, initShard], rfl, rfl, rfl, rfl,
    rfl, rfl, rfl, rfl⟩

/-- C6 counterexample: a 65536-byte key is stored with a truncated
(`uint16`) length field of `0`, so `get` on the very key that was just set
reports `EntryNotFound` instead of returning the value. -/
theorem c6_counterexample :
    ((((initShard 0 0 5 false).set (List.replicate 65536 97) 7 [1] 0).2).get
        (List.replicate 65536 97) 7).1 = .error .entryNotFound := by
  obtain ⟨s1, hset, hq, hmc, hmap, _, _, _, _, _, _, _⟩ :=
    set_initShard 0 5 false (List.replicate 65536 97) [1] 7 0
      (by rw [List.length_replicate]; norm_num)
  rw [hset]
  dsimp only
  rw [get_single s1 _ _ 7 hq hmap
    (by rw [wrapEntry_length, List.length_replicate]; norm_num)]
  have hne : readKeyFromEntry (wrapEntry 0 7 (List.replicate 65536 97) [1])
      ≠ List.replicate 65536 97 := by
    rw [readKeyFromEntry_wrapEntry, List.length_replicate, Nat.mod_self,
      List.take_zero]
    intro hcon
    have hlen := congrArg List.length hcon
    rw [List.length_replicate, List.length_nil] at hlen
    exact absurd hlen.symm (by norm_num)
  rw [if_pos hne]

/-- C6 (amended): for every key *shorter than 65536 bytes* set at `t0` and
not evicted since, `get` returns the value at every later time `t`, even
past `lifeWindow`; `getWithInfo` returns the value with the `Expired` flag
exactly when `t - t0 ≥ lifeWindow`; neither operation removes the entry
(map and queue are untouched). -/
theorem c6_get_ignores_ttl (cap lw t0 t : Nat) (se : Bool) (k v : Bytes) (h : Nat)
    (hk : k.length < 65536)
    (hw : 18 + k.length + v.length < 2 ^ 32)
    (ht0 : t0 ≤ t) (ht : t < 2 ^ 64) :
    ∃ s1, (initShard cap 0 lw se).set k h v t0 = (none, s1) ∧
      (s1.get k h).1 = .ok v ∧
      (s1.getWithInfo k h t).1 = .ok (v, if lw ≤ t - t0 then Expired else 0) ∧
      (s1.get k h).2.hashmap = s1.hashmap ∧
      (s1.get k h).2.entries = s1.entries ∧
      (s1.getWithInfo k h t).2.hashmap = s1.hashmap ∧
      (s1.getWithInfo k h t).2.entries = s1.entries := by
  obtain ⟨s1, hset, hq, hmc, hmap, _, _, hlw, _, _, _, _⟩ :=
    set_initShard cap lw se k v h t0 hw
  have hwlen : (wrapEntry t0 h k v).length < 2 ^ 32 := by
    rw [wrapEntry_length]
    omega
  have hkey := readKeyFromEntry_wrapEntry_short (k := k) t0 h v hk
  have hval := readEntry_wrapEntry_short (k := k) t0 h v hk
  have hts := readTimestampFromEntry_wrapEntry t0 h k v
  have ht0small : t0 < 2 ^ 64 := by omega
  have hflag : u64sub t (readTimestampFromEntry (wrapEntry t0 h k v)) = t - t0 := by
    rw [hts, Nat.mod_eq_of_lt ht0small]
    exact u64sub_of_le ht0 ht
  have hget := get_single s1 (wrapEntry t0 h k v) k h hq hmap hwlen
  have hgwi := getWithInfo_single s1 (wrapEntry t0 h k v) k h t hq hmap hwlen
  rw [if_neg (by rw [hkey]; simp)] at hget
  rw [if_neg (by rw [hkey]; simp)] at hgwi
  refine ⟨s1, hset, ?_, ?_, ?_, ?_, ?_, ?_⟩
  · rw [hget, hval]
  · rw [hgwi, hval, hflag, hlw]
  · rw [hget]
    exact hit_hashmap s1 h
  · rw [hget]
    exact hit_entries s1 h
  · rw [hgwi]
    exact hit_hashmap s1 h
  · rw [hgwi]
    exact hit_entries s1 h

/-- C6 witness input. -/
theorem c6_get_ignores_ttl_witness :
    (([97] : Bytes).length < 65536 ∧ 18 + ([97] : Bytes).length +
        ([1] : Bytes).length < 2 ^ 32 ∧ (0 : Nat) ≤ 2 ∧ (2 : Nat) < 2 ^ 64) ∧
    ∃ s1, (initShard 64 0 1 false).set [97] 5 [1] 0 = (none, s1) ∧
      (s1.get [97] 5).1 = .ok [1] ∧
      (s1.getWithInfo [97] 5 2).1 = .ok ([1], if 1 ≤ 2 - 0 then Expired else 0) ∧
      (s1.get [97] 5).2.hashmap = s1.hashmap ∧
      (s1.get [97] 5).2.entries = s1.entries ∧
      (s1.getWithInfo [97] 5 2).2.hashmap = s1.hashmap ∧
      (s1.getWithInfo [97] 5 2).2.entries = s1.entries :=
  ⟨⟨by decide, by norm_num, by decide, by norm_num⟩,
    c6_get_ignores_ttl 64 1 0 2 false [97] [1] 5 (by decide) (by norm_num)
      (by decide) (by norm_num)⟩

/-- C7 counterexample: a 65536-byte key `k1` collides (same hash `7`) with
the empty key `k2 = []`; after `set(k1, v)`, `get(k2)` does **not** return
`EntryNotFound` — the truncated length field makes the stored key read back
as `[]`, so the lookup succeeds with the mangled value `k1 ++ v` and the
`collisions` counter stays `0`. -/
theorem c7_counterexample :
    ((((initShard 0 0 5 false).set (List.replicate 65536 97) 7 [1] 0).2).get [] 7).1
        = .ok (List.replicate 65536 97 ++ [1]) ∧
    ((((initShard 0 0 5 false).set (List.replicate 65536 97) 7 [1] 0).2).get
        [] 7).2.collisions = 0 := by
  obtain ⟨s1, hset, hq, hmc, hmap, _, hcol, _, _, _, _, _⟩ :=
    set_initShard 0 5 false (List.replicate 65536 97) [1] 7 0
      (by rw [List.length_replicate]; norm_num)
  rw [hset]
  dsimp only
  rw [get_single s1 _ _ 7 hq hmap
    (by rw [wrapEntry_length, List.length_replicate]; norm_num)]
  have heq : readKeyFromEntry (wrapEntry 0 7 (List.replicate 65536 97) [1])
      = ([] : Bytes) := by
    rw [readKeyFromEntry_wrapEntry, List.length_replicate, Nat.mod_self,
      List.take_zero]
  rw [if_neg (by rw [heq]; exact not_not_intro rfl)]
  constructor
  · dsimp only
    rw [readEntry_wrapEntry, List.length_replicate, Nat.mod_self, List.drop_zero]
  · dsimp only
    rw [hit_collisions, hcol]

/-- C7 (amended): for keys *shorter than 65536 bytes*, a hash collision
between distinct keys makes `get` of the other key return `EntryNotFound`
and increments the `collisions` counter. -/
theorem c7_collision (cap lw t : Nat) (se : Bool) (k1 k2 v : Bytes) (h : Nat)
    (hne : k1 ≠ k2) (hk1 : k1.length < 65536)
    (hw : 18 + k1.length + v.length < 2 ^ 32) :
    ∃ s1, (initShard cap 0 lw se).set k1 h v t = (none, s1) ∧
      (s1.get k2 h).1 = .error .entryNotFound ∧
      (s1.get k2 h).2.collisions = 1 := by
  obtain ⟨s1, hset, hq, hmc, hmap, _, hcol, _, _, _, _, _⟩ :=
    set_initShard cap lw se k1 v h t hw
  have hwlen : (wrapEntry t h k1 v).length < 2 ^ 32 := by
    rw [wrapEntry_length]
    omega
  have hget := get_single s1 (wrapEntry t h k1 v) k2 h hq hmap hwlen
  have hkne : readKeyFromEntry (wrapEntry t h k1 v) ≠ k2 := by
    rw [readKeyFromEntry_wrapEntry_short (k := k1) t h v hk1]
    exact hne
  rw [if_pos hkne] at hget
  refine ⟨s1, hset, ?_, ?_⟩
  · rw [hget]
  · rw [hget]
    dsimp only
    rw [hcol]

/-- C7 witness input. -/
theorem c7_collision_witness :
    (([97] : Bytes) ≠ [98] ∧ ([97] : Bytes).length < 65536 ∧
      18 + ([97] : Bytes).length + ([1] : Bytes).length < 2 ^ 32) ∧
    ∃ s1, (initShard 64 0 1 false).set [97] 5 [1] 0 = (none, s1) ∧
      (s1.get [98] 5).1 = .error .entryNotFound ∧
      (s1.get [98] 5).2.collisions = 1 :=
  ⟨⟨by decide, by decide, by norm_num⟩,
    c7_collision 64 1 0 false [97] [98] [1] 5 (by decide) (by decide) (by norm_num)⟩

/-- `removeOldestEntry` on a single-record queue whose record is live. -/
theorem removeOldest_single (s : CacheShard) (w : Bytes) (reason : RemoveReason)
    (hq : QRepr s.entries 0 [w]) (hw : w.length < 2 ^ 32)
    (hh : ¬ readHashFromEntry w = 0) :
    ∃ s2, s.removeOldestEntry reason = .ok s2 ∧
      QRepr s2.entries 0 [] ∧
      s2.removed = s.removed ++ [(w, reason)] ∧
      s2.hashmap = mapDelete s.hashmap (readHashFromEntry w) ∧
      s2.lifeWindow = s.lifeWindow ∧ s2.delHits = s.delHits ∧
      s2.delMisses = s.delMisses ∧ s2.misses = s.misses ∧
      s2.hits = s.hits ∧ s2.collisions = s.collisions ∧
      s2.statsEnabled = s.statsEnabled := by
  obtain ⟨q2, hpop, hq2⟩ := Pop_linear s.entries 0 w [] hq hw
  rw [if_pos rfl] at hq2
  unfold CacheShard.removeOldestEntry
  rw [hpop]
  dsimp only
  rw [if_neg hh]
  split
  · exact ⟨_, rfl, hq2, rfl, rfl, rfl, rfl, rfl, rfl, rfl, rfl, rfl⟩
  · exact ⟨_, rfl, hq2, rfl, rfl, rfl, rfl, rfl, rfl, rfl, rfl, rfl⟩

/-- C5 counterexample: a cache with `lifeWindow = 0` **does** evict with
reason `Expired` — one entry set at time `0` is popped by `cleanUp` at
time `1` and the removal callback fires with reason `Expired`. -/
theorem c5_counterexample :
    (((initShard 64 0 0 false).set [97] 7 [1] 0).2.cleanUp 1).removed
      = [(wrapEntry 0 7 [97] [1], Expired)] := by
  decide

/-- C5 (amended): `lifeWindow = 0` does **not** disable TTL eviction: after
setting a (live-hash) entry at `t0`, `cleanUp` at `t1` pops it and fires
the callback with reason `Expired` exactly when `t1 ≠ t0` (the `uint64`
check `now - ts > 0` holds whenever the timestamps differ). -/
theorem c5_lifewindow_zero (cap t0 t1 : Nat) (se : Bool) (k v : Bytes) (h : Nat)
    (hw : 18 + k.length + v.length < 2 ^ 32)
    (ht0 : t0 < 2 ^ 64) (ht1 : t1 < 2 ^ 64) (hh : h % 2 ^ 64 ≠ 0) :
    ∃ s1, (initShard cap 0 0 se).set k h v t0 = (none, s1) ∧
      (s1.cleanUp t1).removed =
        (if t1 = t0 then [] else [(wrapEntry t0 h k v, Expired)]) := by
  obtain ⟨s1, hset, hq, hmc, hmap, _, _, hlw, hrem, _, _, _, _⟩ :=
    set_initShard cap 0 se k v h t0 hw
  have hwlen : (wrapEntry t0 h k v).length < 2 ^ 32 := by
    rw [wrapEntry_length]
    omega
  refine ⟨s1, hset, ?_⟩
  unfold CacheShard.cleanUp
  have hcnt : s1.entries.count = 1 := by
    rw [hq.hcount]
    rfl
  rw [hcnt]
  rw [CacheShard.cleanUpLoop]
  rw [Peek_linear s1.entries 0 (wrapEntry t0 h k v) [] hq hwlen]
  dsimp only
  have hts : readTimestampFromEntry (wrapEntry t0 h k v) = t0 := by
    rw [readTimestampFromEntry_wrapEntry, Nat.mod_eq_of_lt ht0]
  by_cases heq : t1 = t0
  · have hchk : s1.onEvictCheck (wrapEntry t0 h k v) t1 = false := by
      unfold CacheShard.onEvictCheck
      rw [hts, hlw, heq]
      simp only [decide_eq_false_iff_not]
      intro hcon
      exact (u64sub_pos_iff ht0 ht0).mp hcon rfl
    rw [hchk]
    rw [if_pos heq, if_neg (by simp)]
    exact hrem
  · have hchk : s1.onEvictCheck (wrapEntry t0 h k v) t1 = true := by
      unfold CacheShard.onEvictCheck
      rw [hts, hlw]
      simp only [decide_eq_true_eq]
      exact (u64sub_pos_iff ht1 ht0).mpr heq
    rw [hchk]
    have hhne : ¬ readHashFromEntry (wrapEntry t0 h k v) = 0 := by
      rw [readHashFromEntry_wrapEntry]
      exact hh
    obtain ⟨s2, hrm, hq2, hrem2, _⟩ :=
      removeOldest_single s1 (wrapEntry t0 h k v) Expired hq hwlen hhne
    rw [if_pos rfl, hrm]
    dsimp only
    show (CacheShard.cleanUpLoop (0 + 1) s2 t1).removed = _
    rw [CacheShard.cleanUpLoop]
    rw [Peek_empty s2.entries 0 hq2]
    rw [hrem2, hrem, if_neg heq]
    rfl

/-- Witness for `c5_lifewindow_zero` at concrete inputs. -/
theorem c5_lifewindow_zero_witness :
    ∃ s1, (initShard 64 0 0 false).set [97] 7 [1] 0 = (none, s1) ∧
      (s1.cleanUp 1).removed =
        (if (1 : Nat) = 0 then [] else [(wrapEntry 0 7 [97] [1], Expired)]) :=
  c5_lifewindow_zero 64 0 1 false [97] [1] 7 (by decide) (by decide) (by decide)
    (by decide)

/-- `del` on a state that holds exactly one record, at index `1`. -/
theorem del_single (s : CacheShard) (w : Bytes) (h : Nat)
    (hq : QRepr s.entries 0 [w]) (hmap : s.hashmap h = 1)
    (hw : w.length < 2 ^ 32) :
    ∃ s2, s.del h = (none, s2) ∧
      s2.delHits = s.delHits + 1 ∧ s2.delMisses = s.delMisses ∧
      s2.hashmap h = 0 ∧
      s2.removed = s.removed ++ [(w, Deleted)] := by
  unfold CacheShard.del
  dsimp only
  rw [hmap]
  rw [if_neg Nat.one_ne_zero]
  rw [CheckGet_single s.entries w hq]
  dsimp only
  rw [if_neg Nat.one_ne_zero]
  rw [Get_single s.entries w hq hw]
  dsimp only
  split
  · refine ⟨_, rfl, rfl, rfl, ?_, rfl⟩
    simp [mapDelete]
  · refine ⟨_, rfl, rfl, rfl, ?_, rfl⟩
    simp [mapDelete]

/-- `del` on a key absent from the hashmap only bumps `delMisses`. -/
theorem del_absent (s : CacheShard) (h : Nat) (hmap : s.hashmap h = 0) :
    s.del h = (some .entryNotFound, { s with delMisses := s.delMisses + 1 }) := by
  unfold CacheShard.del
  dsimp only
  rw [hmap]
  rw [if_pos rfl]

/-- C8: after `set`, the first `delete` succeeds and sets `delHits` to `1`,
and an immediately following second `delete` returns `EntryNotFound` and
sets `delMisses` to `1`. -/
theorem c8_delete_twice (cap lw t : Nat) (se : Bool) (k v : Bytes) (h : Nat)
    (hw : 18 + k.length + v.length < 2 ^ 32) :
    ∃ s1 s2 s3,
      (initShard cap 0 lw se).set k h v t = (none, s1) ∧
      s1.del h = (none, s2) ∧ s2.delHits = 1 ∧
      s2.del h = (some .entryNotFound, s3) ∧ s3.delMisses = 1 := by
  obtain ⟨s1, hset, hq, _, hmap, _, _, _, _, hdh, hdm, _, _⟩ :=
    set_initShard cap lw se k v h t hw
  have hwlen : (wrapEntry t h k v).length < 2 ^ 32 := by
    rw [wrapEntry_length]
    omega
  obtain ⟨s2, hdel, hdh2, hdm2, hmap2, _⟩ :=
    del_single s1 (wrapEntry t h k v) h hq hmap hwlen
  refine ⟨s1, s2, { s2 with delMisses := s2.delMisses + 1 }, hset, hdel, ?_, ?_, ?_⟩
  · rw [hdh2, hdh]
  · exact del_absent s2 h hmap2
  · show s2.delMisses + 1 = 1
    rw [hdm2, hdm]

/-- Witness for `c8_delete_twice` at concrete inputs. -/
theorem c8_delete_twice_witness :
    ∃ s1 s2 s3,
      (initShard 64 0 5 false).set [97] 7 [1] 0 = (none, s1) ∧
      s1.del 7 = (none, s2) ∧ s2.delHits = 1 ∧
      s2.del 7 = (some .entryNotFound, s3) ∧ s3.delMisses = 1 :=
  c8_delete_twice 64 5 0 false [97] [1] 7 (by decide)

/-- `removeOldestEntry` never reads nor writes `misses`. -/
theorem removeOldestEntry_misses (s : CacheShard) (m : Nat) (reason : RemoveReason) :
    CacheShard.removeOldestEntry { s with misses := m } reason =
      (s.removeOldestEntry reason).map (fun s2 => { s2 with misses := m }) := by
  unfold CacheShard.removeOldestEntry
  have he : ({ s with misses := m } : CacheShard).entries = s.entries := rfl
  rw [he]
  cases hp : s.entries.Pop with
  | error e => rfl
  | ok v =>
    obtain ⟨oldest, q⟩ := v
    dsimp only
    by_cases hz : readHashFromEntry oldest = 0
    · rw [if_pos hz, if_pos hz]
      rfl
    · rw [if_neg hz, if_neg hz]
      by_cases hst : s.statsEnabled = true
      · rw [if_pos hst, if_pos hst]
        rfl
      · rw [if_neg hst, if_neg hst]
        rfl

/-- `evictOldestIfExpired` never reads nor writes `misses`. -/
theorem evictOldestIfExpired_misses (s : CacheShard) (m t : Nat) :
    CacheShard.evictOldestIfExpired { s with misses := m } t =
      { s.evictOldestIfExpired t with misses := m } := by
  unfold CacheShard.evictOldestIfExpired
  have he : ({ s with misses := m } : CacheShard).entries = s.entries := rfl
  rw [he]
  cases hp : s.entries.Peek with
  | error e => rfl
  | ok oldest =>
    dsimp only
    have hoc : ({ s with misses := m } : CacheShard).onEvictCheck oldest t =
        s.onEvictCheck oldest t := rfl
    rw [hoc]
    cases hoe : s.onEvictCheck oldest t with
    | false => simp
    | true =>
      simp only [if_pos rfl]
      rw [removeOldestEntry_misses]
      cases hr : s.removeOldestEntry Expired with
      | ok s2 => rfl
      | error e => rfl

/-- `pushLoop` never reads nor writes `misses`. -/
theorem pushLoop_misses (fuel : Nat) (s : CacheShard) (w : Bytes) (h m : Nat) :
    CacheShard.pushLoop fuel { s with misses := m } w h =
      ((CacheShard.pushLoop fuel s w h).1,
        { (CacheShard.pushLoop fuel s w h).2 with misses := m }) := by
  induction fuel generalizing s with
  | zero => rfl
  | succ fuel ih =>
    rw [CacheShard.pushLoop]
    rw [CacheShard.pushLoop]
    have he : ({ s with misses := m } : CacheShard).entries = s.entries := rfl
    rw [he]
    cases hp : s.entries.Push w with
    | ok v =>
      obtain ⟨i, q⟩ := v
      rfl
    | error e =>
      dsimp only
      rw [removeOldestEntry_misses]
      cases hr : s.removeOldestEntry NoSpace with
      | ok s2 => exact ih s2
      | error e2 => rfl

/-- `addNewWithoutLock` never reads nor writes `misses`. -/
theorem addNewWithoutLock_misses (s : CacheShard) (k v : Bytes) (h t m : Nat) :
    CacheShard.addNewWithoutLock { s with misses := m } k h v t =
      ((s.addNewWithoutLock k h v t).1,
        { (s.addNewWithoutLock k h v t).2 with misses := m }) := by
  unfold CacheShard.addNewWithoutLock
  dsimp only
  rw [evictOldestIfExpired_misses]
  have hc : ({ s.evictOldestIfExpired t with misses := m } : CacheShard).entries.count
      = (s.evictOldestIfExpired t).entries.count := rfl
  rw [hc]
  exact pushLoop_misses _ _ _ _ _

/-- On a key absent from the hashmap, `set` coincides with
`addNewWithoutLock` (the update-in-place prologue is skipped). -/
theorem set_absent (s : CacheShard) (k v : Bytes) (h t : Nat)
    (hmap : s.hashmap h = 0) :
    s.set k h v t = s.addNewWithoutLock k h v t := by
  unfold CacheShard.set CacheShard.addNewWithoutLock
  dsimp only
  rw [hmap]
  rw [if_neg (fun hcon => hcon rfl)]

/-- C10: on a key absent from the shard, `append` inserts the entry exactly
as `set` would (same returned error and same resulting state), except that
the `misses` counter is one higher — the internal `getWrappedEntry` miss is
counted even though no error reaches the caller. -/
theorem c10_append_miss (s : CacheShard) (k v : Bytes) (h t : Nat)
    (hmap : s.hashmap h = 0) :
    s.append k h v t =
      ((s.set k h v t).1,
        { (s.set k h v t).2 with misses := s.misses + 1 }) := by
  unfold CacheShard.append CacheShard.getValidWrapEntry CacheShard.getWrappedEntry
  dsimp only
  rw [hmap, if_pos rfl]
  dsimp only
  rw [set_absent s k v h t hmap]
  exact addNewWithoutLock_misses s k v h t (s.misses + 1)

/-- Witness for `c10_append_miss` at concrete inputs. -/
theorem c10_append_miss_witness :
    (initShard 64 0 5 false).append [97] 7 [1] 0 =
      (((initShard 64 0 5 false).set [97] 7 [1] 0).1,
        { ((initShard 64 0 5 false).set [97] 7 [1] 0).2 with
            misses := (initShard 64 0 5 false).misses + 1 }) :=
  c10_append_miss (initShard 64 0 5 false) [97] [1] 7 0 rfl

/-- A successful `removeOldestEntry` appends at most one record, with the
given reason, to the `removed` log. -/
theorem removeOldestEntry_removed (s s2 : CacheShard) (reason : RemoveReason)
    (hr : s.removeOldestEntry reason = .ok s2) :
    ∃ l, (∀ e ∈ l, e.2 = reason) ∧ s2.removed = s.removed ++ l := by
  unfold CacheShard.removeOldestEntry at hr
  cases hp : s.entries.Pop with
  | error e =>
    rw [hp] at hr
    simp at hr
  | ok v =>
    obtain ⟨oldest, q⟩ := v
    rw [hp] at hr
    dsimp only at hr
    by_cases hz : readHashFromEntry oldest = 0
    · rw [if_pos hz] at hr
      injection hr with h2
      subst h2
      exact ⟨[], by simp, by simp⟩
    · rw [if_neg hz] at hr
      by_cases hst : s.statsEnabled = true
      · rw [if_pos hst] at hr
        injection hr with h2
        subst h2
        exact ⟨[(oldest, reason)], by simp, by simp⟩
      · rw [if_neg hst] at hr
        injection hr with h2
        subst h2
        exact ⟨[(oldest, reason)], by simp, by simp⟩

/-- `evictOldestIfExpired` appends only `Expired`-reason records to the
`removed` log. -/
theorem evictOldestIfExpired_removed (s : CacheShard) (t : Nat) :
    ∃ l, (∀ e ∈ l, e.2 = Expired) ∧
      (s.evictOldestIfExpired t).removed = s.removed ++ l := by
  unfold CacheShard.evictOldestIfExpired
  cases hp : s.entries.Peek with
  | error e => exact ⟨[], by simp, by simp⟩
  | ok oldest =>
    dsimp only
    by_cases hc : s.onEvictCheck oldest t = true
    · rw [if_pos hc]
      cases hr : s.removeOldestEntry Expired with
      | ok s2 => exact removeOldestEntry_removed s s2 Expired hr
      | error e => exact ⟨[], by simp, by simp⟩
    · rw [if_neg hc]
      exact ⟨[], by simp, by simp⟩

/-- The retry loop of `set` evicts only with reason `NoSpace`, and its only
surfaced error is `entryTooLarge`. -/
theorem pushLoop_outcome (fuel : Nat) (s : CacheShard) (w : Bytes) (hk : Nat) :
    ∃ evicted : List (Bytes × RemoveReason),
      (∀ e ∈ evicted, e.2 = NoSpace) ∧
      (CacheShard.pushLoop fuel s w hk).2.removed = s.removed ++ evicted ∧
      ((CacheShard.pushLoop fuel s w hk).1 = none ∨
        (CacheShard.pushLoop fuel s w hk).1 = some .entryTooLarge) := by
  induction fuel generalizing s with
  | zero => exact ⟨[], by simp, by simp [CacheShard.pushLoop], Or.inr rfl⟩
  | succ fuel ih =>
    rw [CacheShard.pushLoop]
    cases hp : s.entries.Push w with
    | ok v =>
      obtain ⟨i, q⟩ := v
      exact ⟨[], by simp, by simp, Or.inl rfl⟩
    | error e =>
      dsimp only
      cases hr : s.removeOldestEntry NoSpace with
      | error e2 => exact ⟨[], by simp, by simp, Or.inr rfl⟩
      | ok s2 =>
        obtain ⟨l1, hl1, hrm⟩ := removeOldestEntry_removed s s2 NoSpace hr
        obtain ⟨l2, hl2, hrm2, hout⟩ := ih s2
        refine ⟨l1 ++ l2, ?_, ?_, hout⟩
        · intro e2 he
          rcases List.mem_append.mp he with h1 | h2
          · exact hl1 e2 h1
          · exact hl2 e2 h2
        · rw [hrm2, hrm, List.append_assoc]

/-- The evict-then-retry tail shared by the three `set` prologue branches. -/
theorem setRetry_removed (s0 : CacheShard) (w : Bytes) (hk t : Nat) :
    ∃ expired evicted : List (Bytes × RemoveReason),
      (∀ e ∈ expired, e.2 = Expired) ∧ (∀ e ∈ evicted, e.2 = NoSpace) ∧
      (CacheShard.pushLoop ((s0.evictOldestIfExpired t).entries.count + 1)
        (s0.evictOldestIfExpired t) w hk).2.removed
          = s0.removed ++ expired ++ evicted ∧
      ((CacheShard.pushLoop ((s0.evictOldestIfExpired t).entries.count + 1)
        (s0.evictOldestIfExpired t) w hk).1 = none ∨
       (CacheShard.pushLoop ((s0.evictOldestIfExpired t).entries.count + 1)
        (s0.evictOldestIfExpired t) w hk).1 = some ShardError.entryTooLarge) := by
  obtain ⟨l1, hl1, hrm1⟩ := evictOldestIfExpired_removed s0 t
  obtain ⟨l2, hl2, hrm2, hout⟩ := pushLoop_outcome
    ((s0.evictOldestIfExpired t).entries.count + 1) (s0.evictOldestIfExpired t) w hk
  exact ⟨l1, l2, hl1, hl2, by rw [hrm2, hrm1], hout⟩

/-- C4 counterexample: `set` recovers from a full queue by evicting **more
than once** — here a single `set` succeeds (returns no error) after two
`NoSpace` evictions, refuting "retries exactly once". -/
theorem c4_counterexample :
    ((((initShard 50 50 100 false).set [97] 10 [1] 0).2.set [98] 11 [2] 0).2.set
        [99] 12 (List.replicate 20 0) 0).1 = none ∧
    ((((initShard 50 50 100 false).set [97] 10 [1] 0).2.set [98] 11 [2] 0).2.set
        [99] 12 (List.replicate 20 0) 0).2.removed =
      [(wrapEntry 0 10 [97] [1], NoSpace), (wrapEntry 0 11 [98] [2], NoSpace)] := by
  decide

/-- C4 (amended): when `set`'s push fails, the shard pops the oldest record
with reason `NoSpace` and retries — not once but in a loop; the evictions a
single `set` performs are TTL (`Expired`) evictions from its prologue plus
any number of `NoSpace` evictions from the retry loop, and the only error
`set` ever surfaces is `entryTooLarge`. -/
theorem c4_eviction_retry (s : CacheShard) (k v : Bytes) (h t : Nat) :
    ∃ expired evicted : List (Bytes × RemoveReason),
      (∀ e ∈ expired, e.2 = Expired) ∧ (∀ e ∈ evicted, e.2 = NoSpace) ∧
      (s.set k h v t).2.removed = s.removed ++ expired ++ evicted ∧
      ((s.set k h v t).1 = none ∨ (s.set k h v t).1 = some .entryTooLarge) := by
  unfold CacheShard.set
  dsimp only
  split
  · split
    · exact setRetry_removed _ (wrapEntry t h k v) h t
    · exact setRetry_removed _ (wrapEntry t h k v) h t
  · exact setRetry_removed _ (wrapEntry t h k v) h t

/-- C9 (code bug): `newBigCache` accepts `config.Shards = 0` — the
validation `isPowerOfTwo(0)` computes `0 & -1 == 0`, which is `true`, yet
`0` is not a power of two (`2 ^ k ≠ 0` for every `k`), so the claimed
rejection of every non-power-of-two shard count fails at `0`; positive
counts behave as claimed (`1024` accepted, `1000` rejected). -/
theorem c9_zero_shards_accepted :
    newBigCacheOk 0 = true ∧ (∀ k : Nat, (2 : Int) ^ k ≠ 0) ∧
    newBigCacheOk 1024 = true ∧ newBigCacheOk 1000 = false := by
  refine ⟨?_, fun k => pow_ne_zero k (by decide), by decide, by decide⟩
  have h0 : Nat.ldiff 0 0 = 0 := Nat.eq_of_testBit_eq fun i => by
    rw [Nat.testBit_ldiff]
    simp
  show (Int.land 0 (0 - 1) == 0) = true
  rw [show Int.land 0 (0 - 1) = Int.ofNat (Nat.ldiff 0 0) from rfl, h0]
  rfl
